/-
  Verification of the HTML→Markdown conversion engine of the `marker`
  repository (src/marker/renderers/markdown.py) against its natural-language
  specification.

  Strings are modelled as `List Char`.  Each Python regular-expression
  substitution used by the source is embedded as an executable scanner whose
  behaviour coincides with the leftmost / greedy semantics of `re.sub` for the
  concrete pattern in question (the patterns involved never need general
  backtracking, so each one is implemented by the deterministic scan noted in
  its doc comment).
-/
import Mathlib

namespace Marker

/-- Whitespace as matched by Python's `\s` on ASCII text and by `str.strip`:
space, tab, newline, carriage return, vertical tab, form feed. -/
def isWS (c : Char) : Bool :=
  c = ' ' || c = '\t' || c = '\n' || c = '\r' || c = '\x0b' || c = '\x0c'

/-- The fill-in-the-blank glyph class `(_|▁|…|\.)` of
`MarkdownRenderer.__call__`. -/
def isGlyph (c : Char) : Bool :=
  c = '_' || c = '▁' || c = '…' || c = '.'

/-- Python `str.strip` on the left: drop leading whitespace. -/
def stripLeft (l : List Char) : List Char := l.dropWhile isWS

/-- Python `str.strip` on the right: drop trailing whitespace. -/
def stripRight (l : List Char) : List Char :=
  (l.reverse.dropWhile isWS).reverse

/-- Python `str.strip`: drop leading and trailing whitespace. -/
def strip (l : List Char) : List Char := stripRight (stripLeft l)

/-! ### `cleanup_text` (markdown.py lines 22-25)

`re.sub(r"\n{3,}", "\n\n", t)` then `re.sub(r"(\n\s){3,}", "\n\n", t)` then
`t.strip()`. -/

/-- Emit one maximal newline run: runs of three or more newlines collapse to
exactly two (`\n{3,}` → `\n\n`). -/
def nlEmit (n : Nat) : List Char :=
  if n ≥ 3 then ['\n', '\n'] else List.replicate n '\n'

/-- Scanner for `re.sub(r"\n{3,}", "\n\n", ·)`: `n` counts the pending run of
newlines. -/
def nlGo (n : Nat) : List Char → List Char
  | [] => nlEmit n
  | c :: cs =>
    if c = '\n' then nlGo (n + 1) cs
    else nlEmit n ++ c :: nlGo 0 cs

/-- `re.sub(r"\n{3,}", "\n\n", ·)`. -/
def collapseNewlineRuns (l : List Char) : List Char := nlGo 0 l

/-- Number of leading `(\n\s)` pairs of a string: how many iterations of the
pattern `(\n\s)` match greedily at the start (each consumes a newline and one
whitespace character). -/
def nlwsPairs : List Char → Nat
  | '\n' :: c :: cs => if isWS c then nlwsPairs cs + 1 else 0
  | _ => 0

/-- Scanner for `re.sub(r"(\n\s){3,}", "\n\n", ·)` with `re.sub`'s
per-position semantics: at each position try the greedy match (three or more
pairs); on success emit `\n\n` and resume after the consumed characters, on
failure emit one character and retry at the next position.  `fuel` bounds the
number of steps; every step consumes at least one character, so fuel equal to
the length of the input is enough. -/
def nlwsScan : Nat → List Char → List Char
  | _, [] => []
  | 0, l => l
  | fuel + 1, c :: cs =>
    let k := nlwsPairs (c :: cs)
    if k ≥ 3 then '\n' :: '\n' :: nlwsScan fuel (List.drop (2 * k) (c :: cs))
    else c :: nlwsScan fuel cs

/-- `re.sub(r"(\n\s){3,}", "\n\n", ·)`. -/
def collapseNLWSRuns (l : List Char) : List Char := nlwsScan l.length l

/-- `cleanup_text` (markdown.py lines 22-25). -/
def cleanup_text (l : List Char) : List Char :=
  strip (collapseNLWSRuns (collapseNewlineRuns l))

/-! ### Post-processing substitutions (markdown.py lines 410-421) -/

/-- Emit one maximal fill-glyph run (characters in `run.reverse`): runs of
four or more are replaced by twice as many literal dots
(`lambda m: "." * len(m.group()) * 2`). -/
def glyphEmit (run : List Char) : List Char :=
  if run.length ≥ 4 then List.replicate (2 * run.length) '.' else run.reverse

/-- Scanner for `re.sub(r"(_|▁|…|\.){4,}", "." * 2·len, ·)`: `run` (reversed)
holds the pending maximal run of fill glyphs. -/
def glyphGo (run : List Char) : List Char → List Char
  | [] => glyphEmit run
  | c :: cs =>
    if isGlyph c then glyphGo (c :: run) cs
    else glyphEmit run ++ c :: glyphGo [] cs

/-- `re.sub(r"(_|▁|…|\.){4,}", lambda m: "." * len(m.group()) * 2, ·)`. -/
def doubleGlyphRuns (l : List Char) : List Char := glyphGo [] l

/-- The replacement block of the dot-leader substitution: a blank line, 150
dots (`FILL_IN_BLANK_WIDTH`), a blank line. -/
def dotBlock : List Char :=
  '\n' :: '\n' :: List.replicate 150 '.' ++ ['\n', '\n']

/-- The greedy parse of `(\. ?)*` at the start of a string: each iteration
consumes a dot and, greedily, one following space.  Returns the number of
iterations (equivalently, of dots consumed) and the unconsumed remainder. -/
def dotChainCount : List Char → Nat × List Char
  | [] => (0, [])
  | c :: cs =>
    if c = '.' then
      match cs with
      | c2 :: cs2 =>
        if c2 = ' ' then ((dotChainCount cs2).1 + 1, (dotChainCount cs2).2)
        else ((dotChainCount (c2 :: cs2)).1 + 1, (dotChainCount (c2 :: cs2)).2)
      | [] => (1, [])
    else (0, c :: cs)

/-- Scanner for `re.sub(r"(\. ?){130,}", "\n\n" + "." * 150 + "\n\n", ·)`
with `re.sub`'s per-position semantics: at each position try the greedy
chain; 130 or more iterations succeed, are replaced by `dotBlock`, and the
scan resumes after the consumed characters; otherwise one character is
emitted and the scan retries at the next position.  Every step consumes at
least one character, so fuel equal to the input length is enough. -/
def dotScan : Nat → List Char → List Char
  | _, [] => []
  | 0, l => l
  | fuel + 1, c :: cs =>
    if (dotChainCount (c :: cs)).1 ≥ 130 then
      dotBlock ++ dotScan fuel (dotChainCount (c :: cs)).2
    else c :: dotScan fuel cs

/-- `re.sub(r"(\. ?){130,}", "\n\n" + "." * 150 + "\n\n", ·)`. -/
def collapseDotLeaders (l : List Char) : List Char := dotScan l.length l

/-- The whole post-processing pass of `MarkdownRenderer.__call__` on the
converted markdown (pagination disabled): `cleanup_text`, then the
fill-in-the-blank glyph doubling, then the dot-leader collapsing. -/
def postprocess (l : List Char) : List Char :=
  collapseDotLeaders (doubleGlyphRuns (cleanup_text l))

/-! ### `convert_p` (markdown.py lines 86-101) -/

/-- The hyphen-like characters `-—¬` of `convert_p`. -/
def isHyphen (c : Char) : Bool :=
  c = '-' || c = '—' || c = '¬'

/-- The character class `[\p{Ll}|\d]` of the hyphenation regex: a lowercase
letter, the literal `|` (a literal inside a character class), or a digit.
`\p{Ll}` and `\d` are Unicode properties in the source; the inputs this
development evaluates are ASCII, where `Char.isLower`/`Char.isDigit`
coincide with them. -/
def isLlPipeDigit (c : Char) : Bool :=
  c.isLower || c = '|' || c.isDigit

/-- Core of the hyphenation match on a reversed string: the reversed input
(after any permitted trailing whitespace) must start with a hyphen-like
character preceded (in reading order) by a character of `[\p{Ll}|\d]`.
Returns the part of the string before the hyphen, in reading order, which is
`regex.split(r"[-—¬]\s?$", text)[0]`. -/
def hyphenCore : List Char → Option (List Char)
  | h :: c :: rest =>
    if isHyphen h && isLlPipeDigit c then some ((c :: rest).reverse) else none
  | _ => none

/-- On a reversed string, strip a final newline followed by one whitespace
character (the tail `\s?` + `$`-before-final-newline case). -/
def tailStrip2 : List Char → Option (List Char)
  | a :: w :: s => if a = '\n' && isWS w then some s else none
  | _ => none

/-- On a reversed string, strip one whitespace character (the tail with
`\s?` consuming one character and `$` at the very end, or `\s?` empty and
`$` before a final newline). -/
def tailStrip1 : List Char → Option (List Char)
  | w :: s => if isWS w then some s else none
  | _ => none

/-- The test `regex.compile(r".*[\p{Ll}|\d][-—¬]\s?$", regex.DOTALL).match`
combined with `regex.split(r"[-—¬]\s?$", text)[0]`: `\s?` allows one optional
trailing whitespace character and `$` also matches just before one final
newline, so the tail after the hyphen may be empty, one whitespace character,
or one whitespace character followed by a final newline.  At most one of the
three candidate parses can succeed. -/
def hyphenSplit (t : List Char) : Option (List Char) :=
  let r := t.reverse
  (((tailStrip2 r).bind hyphenCore).orElse fun _ =>
    (tailStrip1 r).bind hyphenCore).orElse fun _ => hyphenCore r

/-- The continuation branch of `convert_p` for the plain-text block kinds
(markdown.py lines 92-98): strip a trailing hyphenation break, otherwise
append exactly one space. -/
def convertPContinuationText (t : List Char) : List Char :=
  match hyphenSplit t with
  | some p => p
  | none => t ++ [' ']

/-- Modelled from the spec: the `BlockTypes` enumeration lives in
`marker.schema`, which is not under `src/`; the spec names exactly two
plain-text block kinds (`Text`, `TextInlineMath`) and a list-group kind
(`ListGroup`). -/
inductive BlockType where
  | Text
  | TextInlineMath
  | ListGroup
  deriving DecidableEq

/-- Modelled from the spec: `BlockTypes[name]` looks a name up in the
`marker.schema` enumeration and raises `KeyError` for unknown names; only the
three names used by `convert_p` are modelled. -/
def parseBlockType (s : List Char) : Option BlockType :=
  if s = String.toList "Text" then some .Text
  else if s = String.toList "TextInlineMath" then some .TextInlineMath
  else if s = String.toList "ListGroup" then some .ListGroup
  else none

/-- Default paragraph behaviour: `f"{text}\n\n" if text else ""`. -/
def defaultParagraph (t : List Char) : List Char :=
  if t.isEmpty then [] else t ++ ['\n', '\n']

/-- `Markdownify.convert_p` (markdown.py lines 86-101).  `classes` is
`el["class"]` (empty when absent), `blockType?` the `block-type` attribute
(`none` when absent).  A `.error` result models an uncaught Python exception:
`el["block-type"]` raises `KeyError` when the attribute is missing, and
`BlockTypes[...]` raises `KeyError` for an unknown name. -/
def convert_p (classes : List (List Char)) (blockType? : Option (List Char))
    (text : List Char) : Except Unit (List Char) :=
  let hasContinuation := (String.toList "has-continuation") ∈ classes
  if hasContinuation then
    match blockType? with
    | none => .error ()
    | some btName =>
      match parseBlockType btName with
      | none => .error ()
      | some bt =>
        if bt = .TextInlineMath ∨ bt = .Text then
          .ok (convertPContinuationText text)
        else if bt = .ListGroup then .ok text
        else .ok (defaultParagraph text)
  else .ok (defaultParagraph text)

/-! ### `convert_ul` (markdown.py lines 222-320)

The five compiled patterns are matched against `li_text_stripped`, which has
no leading or trailing whitespace; each matcher below implements its
pattern's anchored semantics for such inputs (the trailing patterns by a
right-to-left scan, which coincides with the lazy-prefix semantics of
`^(.+?)...$` because the `$` anchor pins every group). -/

/-- Is there a position reachable by skipping only newlines at which a
non-newline character stands?  Used for `\s+(.+)` after a prefix of
whitespace: `.` does not match a newline, so the first character of `(.+)`
is the first non-newline character, and every character skipped before it
must be whitespace — when skipping from a whitespace run, only newlines can
stand before it. -/
def existsNonNLStart : List Char → Bool
  | [] => false
  | c :: cs => if c = '\n' then existsNonNLStart cs else true

/-- Does `\s+(.+)` match at the start of the string (no end anchor)? -/
def wsThenAny : List Char → Bool
  | [] => false
  | c :: cs => isWS c && existsNonNLStart cs

/-- `re.match(r"^\s*(\d+)(\.|\))\s+(.+)", ·)` as a Boolean. -/
def startsNumbered (t : List Char) : Bool :=
  let r := t.dropWhile isWS
  let ds := r.takeWhile Char.isDigit
  let r2 := r.dropWhile Char.isDigit
  !ds.isEmpty &&
    (match r2 with
     | d :: rest => (d = '.' || d = ')') && wsThenAny rest
     | [] => false)

/-- `re.match(r"^\s*([a-z])(\.|\))\s+(.+)", ·)` as a Boolean. -/
def startsLetterNumbered (t : List Char) : Bool :=
  match t.dropWhile isWS with
  | c :: d :: rest => c.isLower && (d = '.' || d = ')') && wsThenAny rest
  | _ => false

/-- `re.match(r"^(.+?)\s+(\d+)<delim>\s*$", ·)` for `delim` `.` or `)`,
applied to text without leading whitespace.  Returns
`(group(1).strip(), group(2))`: the `$` anchor pins the delimiter, the digit
run, and the whitespace run before it, so the groups are recovered by a
right-to-left scan; `(.+?)` cannot contain a newline. -/
def trailingNumberMatch (delim : Char) (t : List Char) : Option (List Char × List Char) :=
  match t.reverse.dropWhile isWS with
  | d :: r2 =>
    if d = delim then
      let ds := r2.takeWhile Char.isDigit
      let r3 := r2.dropWhile Char.isDigit
      if ds.isEmpty then none
      else
        let w := r3.takeWhile isWS
        let r4 := r3.dropWhile isWS
        if w.isEmpty || r4.isEmpty then none
        else if '\n' ∈ r4.reverse then none
        else some (strip r4.reverse, ds.reverse)
    else none
  | [] => none

/-- `re.match(r"^(.+?)\s+[a-z]\)\s+(\d+)\)\s*$", ·)` applied to text without
leading whitespace, returning `(group(1).strip(), group(2))`. -/
def trailingLetterNumberMatch (t : List Char) : Option (List Char × List Char) :=
  match t.reverse.dropWhile isWS with
  | d :: r2 =>
    if d = ')' then
      let ds := r2.takeWhile Char.isDigit
      let r3 := r2.dropWhile Char.isDigit
      if ds.isEmpty then none
      else
        let w2 := r3.takeWhile isWS
        let r4 := r3.dropWhile isWS
        if w2.isEmpty then none
        else
          match r4 with
          | d2 :: ch :: r5 =>
            if d2 = ')' && ch.isLower then
              let w1 := r5.takeWhile isWS
              let r6 := r5.dropWhile isWS
              if w1.isEmpty || r6.isEmpty then none
              else if '\n' ∈ r6.reverse then none
              else some (strip r6.reverse, ds.reverse)
            else none
          | _ => none
    else none
  | [] => none

/-- The line emitted for one `li` item's extracted text (markdown.py lines
262-303): the text is stripped, the three trailing patterns are tried in
priority order and rewrite to `f"{number}. {text_part}"`, otherwise
already-numbered text is kept as is, otherwise a `- ` bullet is added. -/
def liLine (t : List Char) : List Char :=
  match trailingLetterNumberMatch (strip t) with
  | some (txt, num) => num ++ '.' :: ' ' :: txt
  | none =>
    match trailingNumberMatch '.' (strip t) with
    | some (txt, num) => num ++ '.' :: ' ' :: txt
    | none =>
      match trailingNumberMatch ')' (strip t) with
      | some (txt, num) => num ++ '.' :: ' ' :: txt
      | none =>
        if startsNumbered (strip t) then strip t
        else if startsLetterNumbered (strip t) then strip t
        else '-' :: ' ' :: strip t

/-- `Markdownify.convert_ul` for a `ul` whose direct `li` children carry the
given extracted texts and no nested lists: the emitted lines joined by
newlines, terminated by a blank line (markdown.py line 320). -/
def convertUl (items : List (List Char)) : List Char :=
  List.intercalate ['\n'] (items.map liLine) ++ ['\n', '\n']

/-! ### `convert_table` (markdown.py lines 122-220) -/

/-- A digit run as a natural number; `none` when empty or not all digits. -/
def digitsToNat (ds : List Char) : Option Nat :=
  if ds.isEmpty || !ds.all Char.isDigit then none
  else some (ds.foldl (fun a c => a * 10 + (c.toNat - 48)) 0)

/-- Python `int(s)` on a string: surrounding whitespace is allowed, then an
optional sign and at least one digit; anything else raises `ValueError`
(modelled as `none`). -/
def pyInt (s : List Char) : Option Int :=
  match strip s with
  | '+' :: ds => (digitsToNat ds).map Int.ofNat
  | '-' :: ds => (digitsToNat ds).map (fun n => -(n : Int))
  | ds => (digitsToNat ds).map Int.ofNat

/-- A `td`/`th` cell as `convert_table` receives it: the formatted text of
`get_formatted_table_text` and the raw `colspan`/`rowspan` attribute strings
(`none` when the attribute is absent, in which case `cell.get(·, 1)`
yields the integer 1). -/
structure RawCell where
  text : List Char
  colspanAttr : Option (List Char)
  rowspanAttr : Option (List Char)

/-- A cell after `int(cell.get("colspan", 1))` / `int(cell.get("rowspan", 1))`. -/
structure Cell where
  text : List Char
  rowspan : Int
  colspan : Int

/-- `int(cell.get(attr, 1))` for one attribute. -/
def parseSpan : Option (List Char) → Option Int
  | none => some 1
  | some s => pyInt s

/-- Parse both spans of a cell; `none` models the `ValueError` raised by
`int` on a malformed attribute. -/
def parseCell (c : RawCell) : Option Cell := do
  let cs ← parseSpan c.colspanAttr
  let rs ← parseSpan c.rowspanAttr
  pure ⟨c.text, rs, cs⟩

/-- Parse every cell of the table; the first pass of `convert_table` calls
`int` on every cell's attributes, so a single malformed span raises. -/
def parseTable (t : List (List RawCell)) : Except Unit (List (List Cell)) :=
  match t.mapM (fun row => row.mapM parseCell) with
  | some tc => .ok tc
  | none => .error ()

/-- `for r in range(count): rowspan_cols[i + r] += cs` on the per-row-index
accumulator (`defaultdict(int)` modelled as a total function). -/
def addRows (f : Nat → Int) (i : Nat) (count : Int) (cs : Int) : Nat → Int :=
  fun j => if i ≤ j ∧ (j : Int) < (i : Int) + count then f j + cs else f j

/-- One cell of the first pass (markdown.py lines 131-137): add its colspan
to the running row total and push the colspan onto rows `i + r` for
`r in range(rowspan - 1)`. -/
def rowColsStep (i : Nat) (st : (Nat → Int) × Int) (c : Cell) : (Nat → Int) × Int :=
  (addRows st.1 i (c.rowspan - 1) c.colspan, st.2 + c.colspan)

/-- First pass over the rows, producing the `colspans` list: each row starts
from `rowspan_cols[i]` and adds its own cells' colspans. -/
def firstPassGo (i : Nat) (f : Nat → Int) : List (List Cell) → List Int
  | [] => []
  | row :: rows =>
    let st := row.foldl (rowColsStep i) (f, f i)
    st.2 :: firstPassGo (i + 1) st.1 rows

/-- The `colspans` list of `convert_table` (markdown.py lines 127-138). -/
def colspansList (t : List (List Cell)) : List Int := firstPassGo 0 (fun _ => 0) t

/-- Python `max` over a nonempty list (0 for the empty guard of line 139). -/
def maxIntList : List Int → Int
  | [] => 0
  | x :: xs => xs.foldl max x

/-- `total_cols = max(colspans) if colspans else 0` (markdown.py line 139). -/
def totalCols (t : List (List Cell)) : Int := maxIntList (colspansList t)

/-- `total_rows = len(el.find_all("tr"))` (markdown.py line 126). -/
def totalRows (t : List (List Cell)) : Nat := t.length

/-- Following the spec's words for the first pass, for comparison with
`colspansList`: a cell in row `i` with rowspan `k` contributes its colspan
to each of the `k - 1` rows following row `i`, that is to rows
`i + 1 … i + k - 1`. -/
def specRowColsStep (i : Nat) (st : (Nat → Int) × Int) (c : Cell) : (Nat → Int) × Int :=
  (addRows st.1 (i + 1) (c.rowspan - 1) c.colspan, st.2 + c.colspan)

/-- The first pass as the spec words it (pushes reach the following rows). -/
def specFirstPassGo (i : Nat) (f : Nat → Int) : List (List Cell) → List Int
  | [] => []
  | row :: rows =>
    let st := row.foldl (specRowColsStep i) (f, f i)
    st.2 :: specFirstPassGo (i + 1) st.1 rows

/-- `total_cols` as the spec words it. -/
def specTotalCols (t : List (List Cell)) : Int :=
  maxIntList (specFirstPassGo 0 (fun _ => 0) t)

/-- The reconstruction grid: `None` (`Option.none`) marks an unfilled
position, `some s` a placed string. -/
abbrev Grid := List (List (Option (List Char)))

/-- Translate a Python sequence index (which may be negative, counting from
the end) into a plain position; `none` models `IndexError`. -/
def pyIndex (len : Nat) (i : Int) : Option Nat :=
  if 0 ≤ i ∧ i < (len : Int) then some i.toNat
  else if -(len : Int) ≤ i ∧ i < 0 then some ((len : Int) + i).toNat
  else none

/-- Python `l[i]` on a list; `.error` models `IndexError`. -/
def pyGet (l : List α) (i : Int) : Except Unit α :=
  match pyIndex l.length i with
  | some n =>
    match l[n]? with
    | some a => .ok a
    | none => .error ()
  | none => .error ()

/-- Python `l[i] = v` on a list; `none` models `IndexError`. -/
def pySet (l : List α) (i : Int) (v : α) : Option (List α) :=
  (pyIndex l.length i).map (fun n => l.set n v)

/-- Python `grid[r][c] = v`; `none` models `IndexError` (from either the row
access or the item assignment). -/
def gridSet (g : Grid) (r : Nat) (c : Int) (v : Option (List Char)) : Option Grid :=
  match g[r]? with
  | none => none
  | some row => (pySet row c v).map (fun row2 => g.set r row2)

/-- The cell-value sanitisation of markdown.py lines 151-156:
`.replace("\n", " ").replace("|", " ").strip()` applied to the formatted
cell text. -/
def sanitizeCell (t : List Char) : List Char :=
  strip ((t.map fun c => if c = '\n' then ' ' else c).map
    fun c => if c = '|' then ' ' else c)

/-- The skip loop `while col_idx < total_cols and grid[row_idx][col_idx] is
not None: col_idx += 1` (markdown.py lines 147-148).  The read of the row is
outside any `try`, so an out-of-range (e.g. far-negative) cursor raises.
Each iteration increases the cursor by one, so `(tc - colIdx).toNat` steps of
fuel always suffice; when the fuel is zero the cursor is already at or past
`tc` and the loop condition is false. -/
def skipGo (row : List (Option (List Char))) (tc : Int) : Nat → Int → Except Unit Int
  | 0, colIdx => .ok colIdx
  | fuel + 1, colIdx =>
    if colIdx < tc then
      match pyGet row colIdx with
      | .error _ => .error ()
      | .ok none => .ok colIdx
      | .ok (some _) => skipGo row tc fuel (colIdx + 1)
    else .ok colIdx

/-- The skip loop of markdown.py lines 147-148. -/
def skipFilled (row : List (Option (List Char))) (tc colIdx : Int) : Except Unit Int :=
  skipGo row tc (tc - colIdx).toNat colIdx

/-- The fill loops of markdown.py lines 164-178: write the value at the
anchor `(rowIdx, colIdx)` and the empty string at every other position of
the rowspan×colspan extent; each write is inside `try … except IndexError:
continue`, so an out-of-bounds write is skipped. -/
def fillExtent (g : Grid) (rowIdx : Nat) (colIdx : Int) (value : List Char)
    (rowspan colspan : Int) : Grid :=
  (List.range rowspan.toNat).foldl
    (fun g1 r =>
      (List.range colspan.toNat).foldl
        (fun g2 (c : Nat) =>
          let v : List Char := if r = 0 ∧ c = 0 then value else []
          match gridSet g2 (rowIdx + r) (colIdx + (c : Int)) (some v) with
          | some g3 => g3
          | none => g2) g1) g

/-- Processing of one cell in the second pass (markdown.py lines 145-180):
skip filled positions, compute the sanitised value, skip the whole cell when
the cursor is out of bounds (`continue`, which also skips the cursor
advance), otherwise fill the extent and advance the cursor by the colspan. -/
def fillCell (tc : Int) (rowIdx : Nat) (st : Grid × Int) (cell : Cell) :
    Except Unit (Grid × Int) := do
  let colIdx ← skipFilled (st.1[rowIdx]?.getD []) tc st.2
  if colIdx ≥ tc then
    pure (st.1, colIdx)
  else
    pure (fillExtent st.1 rowIdx colIdx (sanitizeCell cell.text)
      cell.rowspan cell.colspan, colIdx + cell.colspan)

/-- One row of the second pass: the cursor starts at 0. -/
def fillRow (tc : Int) (rowIdx : Nat) (g : Grid) (row : List Cell) :
    Except Unit Grid :=
  (row.foldlM (fillCell tc rowIdx) (g, 0)).map Prod.fst

/-- The second pass over all rows. -/
def fillGridGo (tc : Int) (rowIdx : Nat) (g : Grid) :
    List (List Cell) → Except Unit Grid
  | [] => .ok g
  | row :: rows => do
    let g2 ← fillRow tc rowIdx g row
    fillGridGo tc (rowIdx + 1) g2 rows

/-- `grid = [[None] * total_cols] * total_rows` (markdown.py line 141). -/
def emptyGrid (rows cols : Nat) : Grid :=
  List.replicate rows (List.replicate cols none)

/-- The whole grid-filling pass of `convert_table`. -/
def fillGrid (t : List (List Cell)) : Except Unit Grid :=
  fillGridGo (totalCols t) 0 (emptyGrid (totalRows t) (totalCols t).toNat) t

/-- The column-width computation of markdown.py lines 183-187: the maximum
printed length of any non-`None` cell of each column. -/
def colWidths (cols : Nat) (g : Grid) : List Nat :=
  g.foldl
    (fun ws row =>
      (ws.zip row).map fun p =>
        match p.2 with
        | some s => max p.1 s.length
        | none => p.1)
    (List.replicate cols 0)

/-- The dash separator row (markdown.py lines 189-192). -/
def headerLine (ws : List Nat) : List Char :=
  '|' :: (List.intercalate ['|'] (ws.map fun w => List.replicate (w + 2) '-')) ++ ['|']

/-- One rendered cell `f" {cell}{' ' * padding} "` with `None` rendered as
the empty string (markdown.py lines 203-207). -/
def dataCellSeg (w : Nat) (cell : Option (List Char)) : List Char :=
  let s := cell.getD []
  ' ' :: s ++ List.replicate (w - s.length) ' ' ++ [' ']

/-- One rendered data row (markdown.py line 208). -/
def dataLine (ws : List Nat) (row : List (Option (List Char))) : List Char :=
  '|' :: (List.intercalate ['|'] ((ws.zip row).map fun p => dataCellSeg p.1 p.2)) ++ ['|']

/-- `not cell` in Python: `None` and the empty string are both falsy. -/
def isEmptyRow (row : List (Option (List Char))) : Bool :=
  row.all fun c => (c.getD []).isEmpty

/-- The row-emission loop of markdown.py lines 195-213: leading blank rows
are skipped, and the dash separator is emitted right after the first emitted
row. -/
def buildLines (ws : List Nat) : Bool → Grid → List (List Char)
  | _, [] => []
  | addedHeader, row :: rest =>
    if isEmptyRow row ∧ ¬addedHeader then buildLines ws addedHeader rest
    else
      let line := dataLine ws row
      if addedHeader then line :: buildLines ws true rest
      else line :: headerLine ws :: buildLines ws true rest

/-- The list `markdown_lines` of `convert_table` for a filled grid. -/
def tableLines (t : List (List Cell)) (g : Grid) : List (List Char) :=
  buildLines (colWidths (totalCols t).toNat g) false g

/-- `Markdownify.convert_table` (markdown.py lines 122-220) with the
HTML-table passthrough disabled, on a table with already-parsed integer
spans; `.error` models an uncaught exception of the fill pass. -/
def convertTable (t : List (List Cell)) : Except Unit (List Char) := do
  let g ← fillGrid t
  pure ('\n' :: '\n' ::
    (List.intercalate ['\n'] (tableLines t g)) ++ ['\n', '\n'])

/-- `Markdownify.convert_table` on raw attribute strings: the first pass
parses every span with `int`, then the grid is filled and rendered. -/
def convertTableRaw (t : List (List RawCell)) : Except Unit (List Char) := do
  let tc ← parseTable t
  convertTable tc

/-- Total lookup `grid[r][c]`, used to state grid invariants: `none` when
the position is out of range, otherwise the entry (itself an `Option`:
`none` models Python's `None`, `some s` a placed string). -/
def gridGet (g : Grid) (r c : Nat) : Option (Option (List Char)) :=
  g[r]?.bind fun row => row[c]?

/-- The inner extent loop `for c in range(n): grid[row][colIdx + c] = f c`,
each write skipped on `IndexError` (markdown.py lines 164-178). -/
def writeRun (g : Grid) (row : Nat) (colIdx : Int) (f : Nat → List Char)
    (n : Nat) : Grid :=
  (List.range n).foldl
    (fun g2 (c : Nat) =>
      match gridSet g2 row (colIdx + (c : Int)) (some (f c)) with
      | some g3 => g3
      | none => g2) g

/-- `fillExtent` with the two `range` bounds already taken to `Nat`;
definitionally equal to `fillExtent` (see `fillExtent_eq_N`). -/
def fillExtentN (g : Grid) (rowIdx : Nat) (colIdx : Int) (value : List Char)
    (R C : Nat) : Grid :=
  (List.range R).foldl
    (fun g1 r =>
      writeRun g1 (rowIdx + r) colIdx
        (fun c => if r = 0 ∧ c = 0 then value else []) C) g

/-- The clean-state discipline of the second pass: when the pass is about to
process row `rowIdx` of the table with column cursor `cur`, every nonempty
placed string lies in a row above the current one, or in the current row
strictly left of the cursor.  (Rows below hold only `None` or the `""`
placeholders written by earlier rowspans.) -/
def CleanBelow (rowIdx : Nat) (cur : Int) (g : Grid) : Prop :=
  ∀ r c s, gridGet g r c = some (some s) → s ≠ [] →
    r < rowIdx ∨ (r = rowIdx ∧ (c : Int) < cur)

/-- The spec's 2×2 example for the second pass: cell (0,0) carries
rowspan 2, so row 1 starts with an empty-string placeholder. -/
def c7Table : List (List Cell) :=
  [[⟨String.toList "A", 2, 1⟩, ⟨String.toList "B", 1, 1⟩],
   [⟨String.toList "C", 1, 1⟩]]

/-- A table whose first cell's rowspan (5) overflows the 2 computed rows:
the out-of-bounds extent writes are skipped and conversion continues. -/
def c8OverflowTable : List (List Cell) :=
  [[⟨String.toList "A", 5, 1⟩, ⟨String.toList "B", 1, 1⟩],
   [⟨String.toList "C", 1, 1⟩]]

/-- The input on which the first pass miscounts: row 0 holds one cell with
rowspan 2, row 1 holds two cells of its own. -/
def c1Table : List (List Cell) :=
  [[⟨String.toList "A", 2, 1⟩],
   [⟨String.toList "B", 1, 1⟩, ⟨String.toList "C", 1, 1⟩]]

/-- A table with an integer-valued but negative `colspan`: after the second
cell of row 0 the column cursor is `1 + (-5) = -4`, and the skip loop's read
`grid[0][-4]` (outside any `try`) raises `IndexError`. -/
def c8Table : List (List Cell) :=
  [[⟨String.toList "P", 1, 1⟩, ⟨String.toList "Q", 1, -5⟩,
    ⟨String.toList "R", 1, 1⟩],
   [⟨String.toList "S", 1, 1⟩, ⟨String.toList "T", 1, 1⟩,
    ⟨String.toList "U", 1, 1⟩]]

/-- Every row of the grid has the given width. -/
def GridDims (g : Grid) (cols : Nat) : Prop := ∀ row ∈ g, row.length = cols

/-- Every placed string in the grid is free of pipe characters. -/
def GridNoPipe (g : Grid) : Prop :=
  ∀ row ∈ g, ∀ cell ∈ row, ∀ s, cell = some s → '|' ∉ s

/-- The combined invariant threaded through the fill pass for C10. -/
def GridInv (cols : Nat) (g : Grid) : Prop :=
  GridDims g cols ∧ GridNoPipe g

/-! ### Helper lemmas about scanning -/

theorem dropWhile_eq_self {p : Char → Bool} {l : List Char}
    (h : ∀ c, l.head? = some c → p c = false) : l.dropWhile p = l := by
  cases l with
  | nil => rfl
  | cons a as =>
    have ha : p a = false := h a rfl
    simp [List.dropWhile_cons, ha]

theorem takeWhile_app {p : Char → Bool} {xs ys : List Char}
    (hx : ∀ c ∈ xs, p c = true)
    (hy : ∀ c, ys.head? = some c → p c = false) :
    (xs ++ ys).takeWhile p = xs := by
  induction xs with
  | nil =>
    cases ys with
    | nil => rfl
    | cons b bs =>
      have hb : p b = false := hy b rfl
      simp [List.takeWhile_cons, hb]
  | cons a as ih =>
    have ha : p a = true := hx a (by simp)
    simp only [List.cons_append, List.takeWhile_cons, ha]
    simp [ih (fun c hc => hx c (by simp [hc]))]

theorem dropWhile_app {p : Char → Bool} {xs ys : List Char}
    (hx : ∀ c ∈ xs, p c = true)
    (hy : ∀ c, ys.head? = some c → p c = false) :
    (xs ++ ys).dropWhile p = ys := by
  induction xs with
  | nil => exact dropWhile_eq_self hy
  | cons a as ih =>
    have ha : p a = true := hx a (by simp)
    simp only [List.cons_append, List.dropWhile_cons, ha]
    simp [ih (fun c hc => hx c (by simp [hc]))]

theorem stripLeft_eq_self {l : List Char}
    (h : ∀ c, l.head? = some c → isWS c = false) : stripLeft l = l :=
  dropWhile_eq_self h

theorem stripRight_eq_self {l : List Char}
    (h : ∀ c, l.getLast? = some c → isWS c = false) : stripRight l = l := by
  unfold stripRight
  rw [dropWhile_eq_self, List.reverse_reverse]
  intro c hc
  exact h c (by rwa [List.head?_reverse] at hc)

theorem strip_eq_self {l : List Char}
    (h1 : ∀ c, l.head? = some c → isWS c = false)
    (h2 : ∀ c, l.getLast? = some c → isWS c = false) : strip l = l := by
  unfold strip
  rw [stripLeft_eq_self h1, stripRight_eq_self h2]

theorem isWS_of_isHyphen {c : Char} (h : isHyphen c = true) : isWS c = false := by
  rcases Bool.or_eq_true_iff.mp h with h1 | h2
  · rcases Bool.or_eq_true_iff.mp h1 with h3 | h4
    · rw [of_decide_eq_true h3]; decide
    · rw [of_decide_eq_true h4]; decide
  · rw [of_decide_eq_true h2]; decide

theorem ne_nl_of_isHyphen {c : Char} (h : isHyphen c = true) : (c = '\n') = False := by
  simp only [eq_iff_iff, iff_false]
  intro hc
  rw [hc] at h
  exact absurd h (by decide)

/-! ### Claim C1 -/

/-- C1: the claim describes the intended accounting (a rowspan-`k` cell
contributes its colspan to the `k-1` following rows), but the source pushes
onto rows `i + r` for `r in range(rowspan - 1)`, i.e. onto rows
`i … i + k - 2`: the increment to the current row `i` is dead (the row total
was already read) and row `i + k - 1` is missed.  On `c1Table` the code
computes `total_cols = 2` while the claimed accounting gives 3, and the
rendered table silently drops cell C. -/
theorem c1_first_pass_off_by_one :
    totalCols c1Table = 2 ∧ specTotalCols c1Table = 3 ∧
    convertTable c1Table =
      .ok (String.toList "\n\n| A |   |\n|---|---|\n|   | B |\n\n") :=
  ⟨rfl, rfl, rfl⟩

/-! ### Claim C2 -/

/-- C2 counterexample: the claim states that any continuation paragraph
whose text ends with a hyphen-like character is stripped, but the source
regex `.*[\p{Ll}|\d][-—¬]\s?$` additionally requires the character before
the hyphen to be a lowercase letter, a digit, or `|`.  For the text `A-`
(uppercase before the hyphen) the code appends a space instead of
stripping. -/
theorem c2_counterexample :
    convertPContinuationText (String.toList "A-") = String.toList "A- " ∧
    convertPContinuationText (String.toList "A-") ≠ String.toList "A" := by
  exact ⟨by decide, by decide⟩

/-! ### Claim C3 -/

/-- C3 counterexample: the conversion can raise on well-typed input.  A
paragraph carrying the `has-continuation` class but no `block-type`
attribute raises `KeyError` at `el["block-type"]`, and a table whose
`colspan` attribute is not an integer literal raises `ValueError` at
`int(cell.get("colspan", 1))`. -/
theorem c3_counterexample :
    convert_p [String.toList "has-continuation"] none (String.toList "hello")
        = .error () ∧
    convertTableRaw [[⟨String.toList "X", some (String.toList "oops"), none⟩]]
        = .error () :=
  ⟨rfl, rfl⟩

/-! ### Claim C4 -/

/-- C4 counterexample: the post-processing pass is not idempotent.  The
string `....` is a run of four fill glyphs, so one application doubles it to
eight dots; eight dots are again a run of four or more fill glyphs, so a
second application doubles again. -/
theorem c4_counterexample :
    postprocess (postprocess (String.toList "....")) ≠
      postprocess (String.toList "....") := by
  decide

/-! ### Claim C8 -/

/-- C8 counterexample: with integer-valued spans the grid-filling pass can
raise: the skip loop indexes the row with a negative cursor produced by a
negative colspan, and that read is not guarded by the `try/except
IndexError`. -/
theorem c8_counterexample :
    fillGrid c8Table = .error () ∧ convertTable c8Table = .error () :=
  ⟨rfl, rfl⟩

/-! ### Claim C2, amended -/

theorem hyphenCore_eval {h c : Char} {rest : List Char}
    (hh : isHyphen h = true) (hc : isLlPipeDigit c = true) :
    hyphenCore (h :: c :: rest) = some ((c :: rest).reverse) := by
  simp [hyphenCore, hh, hc]

theorem hyphenSplit_eval {pre : List Char} {c h : Char} {tail : List Char}
    (hc : isLlPipeDigit c = true) (hh : isHyphen h = true)
    (htail : tail = [] ∨ ∃ w, isWS w = true ∧ (tail = [w] ∨ tail = [w, '\n'])) :
    hyphenSplit (pre ++ [c, h] ++ tail) = some (pre ++ [c]) := by
  have hws : isWS h = false := isWS_of_isHyphen hh
  have hnl : (h = '\n') = False := ne_nl_of_isHyphen hh
  rcases htail with rfl | ⟨w, hw, rfl | rfl⟩
  · have hr : (pre ++ [c, h] ++ ([] : List Char)).reverse = h :: c :: pre.reverse := by
      simp
    unfold hyphenSplit
    rw [hr]
    simp [tailStrip2, tailStrip1, hws, hnl, hyphenCore_eval hh hc, Option.orElse]
  · have hr : (pre ++ [c, h] ++ [w]).reverse = w :: h :: c :: pre.reverse := by
      simp
    unfold hyphenSplit
    rw [hr]
    simp [tailStrip2, tailStrip1, hws, hw, hyphenCore_eval hh hc, Option.orElse]
  · have hr : (pre ++ [c, h] ++ [w, '\n']).reverse = '\n' :: w :: h :: c :: pre.reverse := by
      simp
    unfold hyphenSplit
    rw [hr]
    simp [tailStrip2, tailStrip1, hw, hyphenCore_eval hh hc, Option.orElse]

/-- C2 (amended): for a continuation paragraph of the two plain-text block
kinds, `convert_p` applies the hyphenation logic; the strip fires exactly
when the text ends with a `[\p{Ll}|\d]` character, a hyphen-like character,
and a permitted whitespace tail, in which case the hyphen and tail are
removed; otherwise exactly one trailing space is appended. -/
theorem c2_amended :
    (∀ classes text, String.toList "has-continuation" ∈ classes →
      convert_p classes (some (String.toList "Text")) text =
        .ok (convertPContinuationText text) ∧
      convert_p classes (some (String.toList "TextInlineMath")) text =
        .ok (convertPContinuationText text)) ∧
    (∀ pre c h tail, isLlPipeDigit c = true → isHyphen h = true →
      (tail = [] ∨ ∃ w, isWS w = true ∧ (tail = [w] ∨ tail = [w, '\n'])) →
      convertPContinuationText (pre ++ [c, h] ++ tail) = pre ++ [c]) ∧
    (∀ text, hyphenSplit text = none →
      convertPContinuationText text = text ++ [' ']) := by
  refine ⟨?_, ?_, ?_⟩
  · intro classes text hmem
    have h1 : parseBlockType (String.toList "Text") = some .Text := by decide
    have h2 : parseBlockType (String.toList "TextInlineMath") = some .TextInlineMath := by
      decide
    constructor
    · simp only [convert_p]
      rw [if_pos hmem, h1]
      simp
    · simp only [convert_p]
      rw [if_pos hmem, h2]
      simp
  · intro pre c h tail hc hh htail
    unfold convertPContinuationText
    rw [hyphenSplit_eval hc hh htail]
  · intro text hnone
    unfold convertPContinuationText
    rw [hnone]

/-- Witness for `c2_amended`: the spec's two examples, `inter-` joining as
`inter` and `cats` gaining exactly one trailing space. -/
theorem c2_amended_witness :
    convert_p [String.toList "has-continuation"] (some (String.toList "Text"))
        (String.toList "inter-") = .ok (String.toList "inter") ∧
    convertPContinuationText (String.toList "cats") = String.toList "cats " := by
  constructor
  · have h1 := (c2_amended.1 [String.toList "has-continuation"]
      (String.toList "inter-") (by simp)).1
    have h2 := c2_amended.2.1 (String.toList "inte") 'r' '-' []
      (by decide) (by decide) (Or.inl rfl)
    rw [h1]
    have he : String.toList "inter-" = String.toList "inte" ++ ['r', '-'] ++ [] := by
      decide
    rw [he, h2]
    rfl
  · exact c2_amended.2.2 (String.toList "cats") (by decide)

/-! ### Claim C4, amended -/

theorem head_dropWhile_false {p : Char → Bool} :
    ∀ {l : List Char} {c : Char}, (l.dropWhile p).head? = some c → p c = false := by
  intro l
  induction l with
  | nil => intro c hc; simp at hc
  | cons a as ih =>
    intro c hc
    by_cases ha : p a
    · exact ih (by simpa [List.dropWhile_cons, ha] using hc)
    · simp [List.dropWhile_cons, ha] at hc
      rw [← hc]
      simpa using ha

theorem dropWhile_suffix_marker {p : Char → Bool} :
    ∀ l : List Char, l.dropWhile p <:+ l := by
  intro l
  induction l with
  | nil => exact List.suffix_refl _
  | cons a as ih =>
    by_cases ha : p a
    · simp only [List.dropWhile_cons, ha, if_pos]
      exact ih.trans (List.suffix_cons a as)
    · simp only [List.dropWhile_cons, ha, if_neg, Bool.false_eq_true, not_false_iff]
      exact List.suffix_refl _

theorem stripRight_head {m : List Char} {c : Char}
    (h : (stripRight m).head? = some c) : m.head? = some c := by
  obtain ⟨t, ht⟩ := dropWhile_suffix_marker (p := isWS) m.reverse
  have hm : m = stripRight m ++ t.reverse := by
    have := congrArg List.reverse ht
    simpa [stripRight] using this.symm
  rw [hm]
  cases hsr : stripRight m with
  | nil => rw [hsr] at h; simp at h
  | cons a as =>
    rw [hsr] at h
    simpa using h

theorem strip_head_not_ws {l : List Char} {c : Char}
    (h : (strip l).head? = some c) : isWS c = false :=
  head_dropWhile_false (stripRight_head h)

theorem strip_getLast_not_ws {l : List Char} {c : Char}
    (h : (strip l).getLast? = some c) : isWS c = false := by
  have h2 : ((stripLeft l).reverse.dropWhile isWS).head? = some c := by
    have : (strip l).getLast? = ((stripLeft l).reverse.dropWhile isWS).head? := by
      simp [strip, stripRight, List.getLast?_reverse]
    rwa [this] at h
  exact head_dropWhile_false h2

theorem strip_idem (l : List Char) : strip (strip l) = strip l :=
  strip_eq_self (fun _ h => strip_head_not_ws h) (fun _ h => strip_getLast_not_ws h)

theorem mem_of_mem_strip {l : List Char} {c : Char} (h : c ∈ strip l) : c ∈ l := by
  have h1 : c ∈ stripLeft l := by
    have hs : List.Sublist ((stripLeft l).reverse.dropWhile isWS) (stripLeft l).reverse :=
      (dropWhile_suffix_marker (stripLeft l).reverse).sublist
    have := hs.subset (by simpa [strip, stripRight, List.mem_reverse] using h)
    simpa [List.mem_reverse] using this
  have hs2 : List.Sublist (stripLeft l) l := by
    have := dropWhile_suffix_marker (p := isWS) l
    exact this.sublist
  exact hs2.subset h1

theorem collapseNewlineRuns_of_no_nl {l : List Char}
    (h : ∀ c ∈ l, c ≠ '\n') : collapseNewlineRuns l = l := by
  unfold collapseNewlineRuns
  induction l with
  | nil => rfl
  | cons a as ih =>
    have ha : a ≠ '\n' := h a (by simp)
    simp only [nlGo, ha, if_neg, ite_false]
    simp [nlEmit, ih (fun c hc => h c (by simp [hc])), ha]

theorem nlwsPairs_of_head_ne {c : Char} {cs : List Char} (h : c ≠ '\n') :
    nlwsPairs (c :: cs) = 0 := by
  unfold nlwsPairs
  split
  · next heq =>
    injection heq with h1 _
    exact absurd h1 h
  · rfl

theorem collapseNLWSRuns_of_no_nl_aux {l : List Char}
    (h : ∀ c ∈ l, c ≠ '\n') : ∀ fuel, nlwsScan fuel l = l := by
  induction l with
  | nil => intro fuel; cases fuel <;> rfl
  | cons a as ih =>
    intro fuel
    cases fuel with
    | zero => rfl
    | succ fuel =>
      have ha : a ≠ '\n' := h a (by simp)
      have hp : nlwsPairs (a :: as) = 0 := nlwsPairs_of_head_ne ha
      simp only [nlwsScan, hp]
      simp [ih (fun c hc => h c (by simp [hc]))]

theorem collapseNLWSRuns_of_no_nl {l : List Char}
    (h : ∀ c ∈ l, c ≠ '\n') : collapseNLWSRuns l = l :=
  collapseNLWSRuns_of_no_nl_aux h _

theorem doubleGlyphRuns_of_no_glyph {l : List Char}
    (h : ∀ c ∈ l, isGlyph c = false) : doubleGlyphRuns l = l := by
  unfold doubleGlyphRuns
  induction l with
  | nil => rfl
  | cons a as ih =>
    have ha : isGlyph a = false := h a (by simp)
    simp only [glyphGo, ha, Bool.false_eq_true, if_neg, not_false_iff]
    simp [glyphEmit, ih (fun c hc => h c (by simp [hc]))]

theorem dotChainCount_of_head_ne {c : Char} {cs : List Char} (h : c ≠ '.') :
    dotChainCount (c :: cs) = (0, c :: cs) := by
  unfold dotChainCount
  rw [if_neg h]

theorem dotScan_of_no_dot {l : List Char}
    (h : ∀ c ∈ l, c ≠ '.') : ∀ fuel, dotScan fuel l = l := by
  induction l with
  | nil => intro fuel; cases fuel <;> rfl
  | cons a as ih =>
    intro fuel
    cases fuel with
    | zero => rfl
    | succ fuel =>
      have ha : a ≠ '.' := h a (by simp)
      have hp : dotChainCount (a :: as) = (0, a :: as) := dotChainCount_of_head_ne ha
      simp only [dotScan, hp]
      simp [ih (fun c hc => h c (by simp [hc]))]

theorem postprocess_of_plain {l : List Char}
    (hg : ∀ c ∈ l, isGlyph c = false) (hn : ∀ c ∈ l, c ≠ '\n') :
    postprocess l = strip l := by
  have hd : ∀ c ∈ strip l, c ≠ '.' := by
    intro c hc hceq
    have := hg c (mem_of_mem_strip hc)
    rw [hceq] at this
    exact absurd this (by decide)
  unfold postprocess cleanup_text
  rw [collapseNewlineRuns_of_no_nl hn, collapseNLWSRuns_of_no_nl hn,
    doubleGlyphRuns_of_no_glyph (fun c hc => hg c (mem_of_mem_strip hc)),
    collapseDotLeaders, dotScan_of_no_dot hd]

/-- C4 (amended): on strings containing no newline and no fill glyph, the
post-processing pass reduces to whitespace trimming and is therefore
idempotent. -/
theorem c4_amended (l : List Char)
    (h : ∀ c ∈ l, isGlyph c = false ∧ c ≠ '\n') :
    postprocess (postprocess l) = postprocess l := by
  have hg : ∀ c ∈ l, isGlyph c = false := fun c hc => (h c hc).1
  have hn : ∀ c ∈ l, c ≠ '\n' := fun c hc => (h c hc).2
  have h1 : postprocess l = strip l := postprocess_of_plain hg hn
  rw [h1, postprocess_of_plain (fun c hc => hg c (mem_of_mem_strip hc))
    (fun c hc => hn c (mem_of_mem_strip hc)), strip_idem]

/-- Witness for `c4_amended` at a concrete newline- and glyph-free string. -/
theorem c4_amended_witness :
    postprocess (postprocess (String.toList " hello world ")) =
      postprocess (String.toList " hello world ") :=
  c4_amended _ (by decide)

/-! ### Claim C5 -/

theorem mem_of_isWS {c : Char} (h : isWS c = true) :
    c = ' ' ∨ c = '\t' ∨ c = '\n' ∨ c = '\r' ∨ c = '\x0b' ∨ c = '\x0c' := by
  unfold isWS at h
  simp only [Bool.or_eq_true, decide_eq_true_eq] at h
  tauto

theorem isDigit_false_of_isWS {c : Char} (h : isWS c = true) :
    c.isDigit = false := by
  rcases mem_of_isWS h with rfl | rfl | rfl | rfl | rfl | rfl <;> decide

theorem reverse_ne_nil_of_ne_nil {l : List Char} (h : l ≠ []) :
    l.reverse ≠ [] := by
  simpa using h

/-- Evaluation of `trailingNumberMatch` on a string of the decomposed shape
`text ++ whitespace ++ digits ++ [delim]`. -/
theorem trailingNumberMatch_eval (delim : Char) {txt w ds : List Char}
    (hdelws : isWS delim = false)
    (htxt : txt ≠ []) (htxtnl : '\n' ∉ txt)
    (htxthead : ∀ c, txt.head? = some c → isWS c = false)
    (htxtlast : ∀ c, txt.getLast? = some c → isWS c = false)
    (hw : w ≠ []) (hwws : ∀ c ∈ w, isWS c = true)
    (hds : ds ≠ []) (hdsdig : ∀ c ∈ ds, c.isDigit = true) :
    trailingNumberMatch delim (txt ++ w ++ ds ++ [delim]) = some (txt, ds) := by
  obtain ⟨w0, wr, hwr⟩ := List.exists_cons_of_ne_nil (reverse_ne_nil_of_ne_nil hw)
  have hw0 : w0 ∈ w := by
    rw [← List.mem_reverse, hwr]
    simp
  have hrev : (txt ++ w ++ ds ++ [delim]).reverse =
      delim :: (ds.reverse ++ (w.reverse ++ txt.reverse)) := by
    simp
  have hdrop : (delim :: (ds.reverse ++ (w.reverse ++ txt.reverse))).dropWhile isWS =
      delim :: (ds.reverse ++ (w.reverse ++ txt.reverse)) :=
    dropWhile_eq_self (by intro c hc; simp at hc; rwa [← hc])
  have htake : (ds.reverse ++ (w.reverse ++ txt.reverse)).takeWhile Char.isDigit =
      ds.reverse := by
    refine takeWhile_app (fun c hc => hdsdig c (List.mem_reverse.mp hc)) ?_
    intro c hc
    rw [hwr] at hc
    simp at hc
    rw [← hc]
    exact isDigit_false_of_isWS (hwws w0 hw0)
  have hdrop2 : (ds.reverse ++ (w.reverse ++ txt.reverse)).dropWhile Char.isDigit =
      w.reverse ++ txt.reverse := by
    refine dropWhile_app (fun c hc => hdsdig c (List.mem_reverse.mp hc)) ?_
    intro c hc
    rw [hwr] at hc
    simp at hc
    rw [← hc]
    exact isDigit_false_of_isWS (hwws w0 hw0)
  have htake2 : (w.reverse ++ txt.reverse).takeWhile isWS = w.reverse := by
    refine takeWhile_app (fun c hc => hwws c (List.mem_reverse.mp hc)) ?_
    intro c hc
    rw [List.head?_reverse] at hc
    exact htxtlast c hc
  have hdrop3 : (w.reverse ++ txt.reverse).dropWhile isWS = txt.reverse := by
    refine dropWhile_app (fun c hc => hwws c (List.mem_reverse.mp hc)) ?_
    intro c hc
    rw [List.head?_reverse] at hc
    exact htxtlast c hc
  unfold trailingNumberMatch
  rw [hrev, hdrop]
  simp only []
  rw [if_pos trivial, htake, hdrop2, htake2, hdrop3]
  rw [if_neg (by simp only [List.isEmpty_iff]; exact reverse_ne_nil_of_ne_nil hds)]
  rw [if_neg (by
    simp only [Bool.or_eq_true, List.isEmpty_iff]
    push_neg
    exact ⟨reverse_ne_nil_of_ne_nil hw, reverse_ne_nil_of_ne_nil htxt⟩)]
  rw [if_neg (by rw [List.reverse_reverse]; exact htxtnl)]
  rw [List.reverse_reverse, List.reverse_reverse, strip_eq_self htxthead htxtlast]

/-- Evaluation of `trailingLetterNumberMatch` on a string of the decomposed
shape `text ++ ws ++ [letter, ')'] ++ ws ++ digits ++ [')']`. -/
theorem trailingLetterNumberMatch_eval {lc : Char} {txt w1 w2 ds : List Char}
    (hlc : lc.isLower = true)
    (htxt : txt ≠ []) (htxtnl : '\n' ∉ txt)
    (htxthead : ∀ c, txt.head? = some c → isWS c = false)
    (htxtlast : ∀ c, txt.getLast? = some c → isWS c = false)
    (hw1 : w1 ≠ []) (hw1ws : ∀ c ∈ w1, isWS c = true)
    (hw2 : w2 ≠ []) (hw2ws : ∀ c ∈ w2, isWS c = true)
    (hds : ds ≠ []) (hdsdig : ∀ c ∈ ds, c.isDigit = true) :
    trailingLetterNumberMatch (txt ++ w1 ++ [lc, ')'] ++ w2 ++ ds ++ [')']) =
      some (txt, ds) := by
  obtain ⟨w0, wr, hwr⟩ := List.exists_cons_of_ne_nil (reverse_ne_nil_of_ne_nil hw2)
  have hw0 : w0 ∈ w2 := by
    rw [← List.mem_reverse, hwr]
    simp
  have hrev : (txt ++ w1 ++ [lc, ')'] ++ w2 ++ ds ++ [')']).reverse =
      ')' :: (ds.reverse ++ (w2.reverse ++ (')' :: lc :: (w1.reverse ++ txt.reverse)))) := by
    simp
  have hdrop : (')' :: (ds.reverse ++ (w2.reverse ++ (')' :: lc ::
      (w1.reverse ++ txt.reverse))))).dropWhile isWS =
      ')' :: (ds.reverse ++ (w2.reverse ++ (')' :: lc :: (w1.reverse ++ txt.reverse)))) :=
    dropWhile_eq_self (by intro c hc; simp at hc; rw [← hc]; decide)
  have htake : (ds.reverse ++ (w2.reverse ++ (')' :: lc ::
      (w1.reverse ++ txt.reverse)))).takeWhile Char.isDigit = ds.reverse := by
    refine takeWhile_app (fun c hc => hdsdig c (List.mem_reverse.mp hc)) ?_
    intro c hc
    rw [hwr] at hc
    simp at hc
    rw [← hc]
    exact isDigit_false_of_isWS (hw2ws w0 hw0)
  have hdrop2 : (ds.reverse ++ (w2.reverse ++ (')' :: lc ::
      (w1.reverse ++ txt.reverse)))).dropWhile Char.isDigit =
      w2.reverse ++ (')' :: lc :: (w1.reverse ++ txt.reverse)) := by
    refine dropWhile_app (fun c hc => hdsdig c (List.mem_reverse.mp hc)) ?_
    intro c hc
    rw [hwr] at hc
    simp at hc
    rw [← hc]
    exact isDigit_false_of_isWS (hw2ws w0 hw0)
  have htake2 : (w2.reverse ++ (')' :: lc :: (w1.reverse ++ txt.reverse))).takeWhile isWS =
      w2.reverse := by
    refine takeWhile_app (fun c hc => hw2ws c (List.mem_reverse.mp hc)) ?_
    intro c hc
    simp at hc
    rw [← hc]
    decide
  have hdrop3 : (w2.reverse ++ (')' :: lc :: (w1.reverse ++ txt.reverse))).dropWhile isWS =
      ')' :: lc :: (w1.reverse ++ txt.reverse) := by
    refine dropWhile_app (fun c hc => hw2ws c (List.mem_reverse.mp hc)) ?_
    intro c hc
    simp at hc
    rw [← hc]
    decide
  have htake3 : (w1.reverse ++ txt.reverse).takeWhile isWS = w1.reverse := by
    refine takeWhile_app (fun c hc => hw1ws c (List.mem_reverse.mp hc)) ?_
    intro c hc
    rw [List.head?_reverse] at hc
    exact htxtlast c hc
  have hdrop4 : (w1.reverse ++ txt.reverse).dropWhile isWS = txt.reverse := by
    refine dropWhile_app (fun c hc => hw1ws c (List.mem_reverse.mp hc)) ?_
    intro c hc
    rw [List.head?_reverse] at hc
    exact htxtlast c hc
  unfold trailingLetterNumberMatch
  rw [hrev, hdrop]
  simp only []
  rw [if_pos trivial, htake, hdrop2, htake2, hdrop3]
  rw [if_neg (by simp only [List.isEmpty_iff]; exact reverse_ne_nil_of_ne_nil hds)]
  rw [if_neg (by simp only [List.isEmpty_iff]; exact reverse_ne_nil_of_ne_nil hw2)]
  simp only [htake3, hdrop4]
  rw [if_pos (by simp [hlc])]
  rw [if_neg (by
    simp only [Bool.or_eq_true, List.isEmpty_iff]
    push_neg
    exact ⟨reverse_ne_nil_of_ne_nil hw1, reverse_ne_nil_of_ne_nil htxt⟩)]
  rw [if_neg (by rw [List.reverse_reverse]; exact htxtnl)]
  rw [List.reverse_reverse, List.reverse_reverse, strip_eq_self htxthead htxtlast]

theorem trailingLetterNumberMatch_none_of_ne {t : List Char} {d : Char}
    {r : List Char} (h : t.reverse.dropWhile isWS = d :: r) (hd : d ≠ ')') :
    trailingLetterNumberMatch t = none := by
  unfold trailingLetterNumberMatch
  rw [h]
  simp only []
  rw [if_neg hd]

theorem trailingNumberMatch_none_of_ne (delim : Char) {t : List Char} {d : Char}
    {r : List Char} (h : t.reverse.dropWhile isWS = d :: r) (hd : d ≠ delim) :
    trailingNumberMatch delim t = none := by
  unfold trailingNumberMatch
  rw [h]
  simp only []
  rw [if_neg hd]

theorem strip_of_decomposed (mid : List Char) (last : Char) {txt : List Char}
    (htxt : txt ≠ [])
    (hh : ∀ c, txt.head? = some c → isWS c = false)
    (hl : isWS last = false) :
    strip (txt ++ mid ++ [last]) = txt ++ mid ++ [last] := by
  apply strip_eq_self
  · intro c hc
    obtain ⟨t0, tr, rfl⟩ := List.exists_cons_of_ne_nil htxt
    simp only [List.cons_append, List.head?_cons, Option.some.injEq] at hc
    rw [← hc]
    exact hh t0 rfl
  · intro c hc
    rw [List.getLast?_concat] at hc
    simp only [Option.some.injEq] at hc
    rwa [← hc]

theorem dropWhile_reverse_of_last (t : List Char) (last : Char)
    (hl : isWS last = false) :
    (t ++ [last]).reverse.dropWhile isWS = last :: t.reverse := by
  rw [List.reverse_append]
  simp only [List.reverse_cons, List.reverse_nil, List.nil_append, List.singleton_append]
  exact dropWhile_eq_self (by intro c hc; simp at hc; rwa [← hc])

/-- C5: the line emitted for each item of a `ul` node: the three trailing
ordinal patterns rewrite to `<number>. <text>` in priority order, text that
already starts with a numeric or lowercase-letter ordinal is kept as is, and
everything else gets a `- ` bullet; together with the spec's three concrete
examples. -/
theorem c5_list_item_emission :
    (∀ txt w1 lc w2 ds, txt ≠ [] → '\n' ∉ txt →
      (∀ c, txt.head? = some c → isWS c = false) →
      (∀ c, txt.getLast? = some c → isWS c = false) →
      lc.isLower = true → w1 ≠ [] → (∀ c ∈ w1, isWS c = true) →
      w2 ≠ [] → (∀ c ∈ w2, isWS c = true) →
      ds ≠ [] → (∀ c ∈ ds, c.isDigit = true) →
      liLine (txt ++ w1 ++ [lc, ')'] ++ w2 ++ ds ++ [')']) =
        ds ++ '.' :: ' ' :: txt) ∧
    (∀ txt w ds, txt ≠ [] → '\n' ∉ txt →
      (∀ c, txt.head? = some c → isWS c = false) →
      (∀ c, txt.getLast? = some c → isWS c = false) →
      w ≠ [] → (∀ c ∈ w, isWS c = true) →
      ds ≠ [] → (∀ c ∈ ds, c.isDigit = true) →
      liLine (txt ++ w ++ ds ++ ['.']) = ds ++ '.' :: ' ' :: txt) ∧
    (∀ txt w ds, txt ≠ [] → '\n' ∉ txt →
      (∀ c, txt.head? = some c → isWS c = false) →
      (∀ c, txt.getLast? = some c → isWS c = false) →
      w ≠ [] → (∀ c ∈ w, isWS c = true) →
      ds ≠ [] → (∀ c ∈ ds, c.isDigit = true) →
      trailingLetterNumberMatch (txt ++ w ++ ds ++ [')']) = none →
      liLine (txt ++ w ++ ds ++ [')']) = ds ++ '.' :: ' ' :: txt) ∧
    (∀ t, strip t = t → trailingLetterNumberMatch t = none →
      trailingNumberMatch '.' t = none → trailingNumberMatch ')' t = none →
      (startsNumbered t = true ∨ startsLetterNumbered t = true) →
      liLine t = t) ∧
    (∀ t, strip t = t → trailingLetterNumberMatch t = none →
      trailingNumberMatch '.' t = none → trailingNumberMatch ')' t = none →
      startsNumbered t = false → startsLetterNumbered t = false →
      liLine t = '-' :: ' ' :: t) ∧
    liLine (String.toList "Some entry a) 3)") = String.toList "3. Some entry" ∧
    liLine (String.toList "1. Introduction") = String.toList "1. Introduction" ∧
    liLine (String.toList "Introduction") = String.toList "- Introduction" ∧
    convertUl [String.toList "Some entry a) 3)", String.toList "1. Introduction",
        String.toList "Introduction"] =
      String.toList "3. Some entry\n1. Introduction\n- Introduction\n\n" := by
  refine ⟨?_, ?_, ?_, ?_, ?_, by decide, by decide, by decide, by decide⟩
  · intro txt w1 lc w2 ds htxt htxtnl htxthead htxtlast hlc hw1 hw1ws hw2 hw2ws hds hdsdig
    have hstrip : strip (txt ++ w1 ++ [lc, ')'] ++ w2 ++ ds ++ [')']) =
        txt ++ w1 ++ [lc, ')'] ++ w2 ++ ds ++ [')'] := by
      have := strip_of_decomposed (w1 ++ [lc, ')'] ++ w2 ++ ds) ')'
        htxt htxthead (by decide)
      simpa [List.append_assoc] using this
    have hsome := trailingLetterNumberMatch_eval hlc htxt htxtnl htxthead htxtlast
      hw1 hw1ws hw2 hw2ws hds hdsdig
    unfold liLine
    rw [hstrip, hsome]
  · intro txt w ds htxt htxtnl htxthead htxtlast hw hwws hds hdsdig
    have hstrip : strip (txt ++ w ++ ds ++ ['.']) = txt ++ w ++ ds ++ ['.'] := by
      have := strip_of_decomposed (w ++ ds) '.' htxt htxthead (by decide)
      simpa [List.append_assoc] using this
    have hdw : (txt ++ w ++ ds ++ ['.']).reverse.dropWhile isWS =
        '.' :: (txt ++ w ++ ds).reverse := by
      have := dropWhile_reverse_of_last (txt ++ w ++ ds) '.' (by decide)
      simpa [List.append_assoc] using this
    have hnone := trailingLetterNumberMatch_none_of_ne hdw (by decide)
    have hsome := trailingNumberMatch_eval '.' (by decide)
      htxt htxtnl htxthead htxtlast hw hwws hds hdsdig
    unfold liLine
    rw [hstrip, hnone]
    simp only []
    rw [hsome]
  · intro txt w ds htxt htxtnl htxthead htxtlast hw hwws hds hdsdig hlnone
    have hstrip : strip (txt ++ w ++ ds ++ [')']) = txt ++ w ++ ds ++ [')'] := by
      have := strip_of_decomposed (w ++ ds) ')' htxt htxthead (by decide)
      simpa [List.append_assoc] using this
    have hdw : (txt ++ w ++ ds ++ [')']).reverse.dropWhile isWS =
        ')' :: (txt ++ w ++ ds).reverse := by
      have := dropWhile_reverse_of_last (txt ++ w ++ ds) ')' (by decide)
      simpa [List.append_assoc] using this
    have hdotnone := trailingNumberMatch_none_of_ne '.' hdw (by decide)
    have hsome := trailingNumberMatch_eval ')' (by decide)
      htxt htxtnl htxthead htxtlast hw hwws hds hdsdig
    unfold liLine
    rw [hstrip, hlnone]
    simp only []
    rw [hdotnone]
    simp only []
    rw [hsome]
  · intro t hstrip h1 h2 h3 h4
    unfold liLine
    rw [hstrip, h1]
    simp only []
    rw [h2]
    simp only []
    rw [h3]
    simp only []
    rcases h4 with h4 | h4
    · rw [if_pos h4]
    · rcases hsn : startsNumbered t with _ | _
      · simp [h4]
      · simp
  · intro t hstrip h1 h2 h3 h4 h5
    unfold liLine
    rw [hstrip, h1]
    simp only []
    rw [h2]
    simp only []
    rw [h3]
    simp only []
    rw [if_neg (by simp [h4]), if_neg (by simp [h5])]

/-- Witness for `c5_list_item_emission`: its trailing-pattern parts applied
at the concrete decompositions of `Some entry a) 3)` and `text 12.`. -/
theorem c5_witness :
    liLine (String.toList "Some entry" ++ [' '] ++ ['a', ')'] ++ [' '] ++
        ['3'] ++ [')']) = ['3'] ++ '.' :: ' ' :: String.toList "Some entry" ∧
    liLine (String.toList "text" ++ [' '] ++ ['1', '2'] ++ ['.']) =
      ['1', '2'] ++ '.' :: ' ' :: String.toList "text" := by
  constructor
  · exact c5_list_item_emission.1 (String.toList "Some entry") [' '] 'a' [' '] ['3']
      (by decide) (by decide)
      (by intro c hc; simp at hc; rw [← hc]; decide)
      (by intro c hc; simp at hc; rw [← hc]; decide)
      (by decide) (by decide) (by intro c hc; simp at hc; rw [hc]; decide)
      (by decide) (by intro c hc; simp at hc; rw [hc]; decide)
      (by decide) (by intro c hc; simp at hc; rw [hc]; decide)
  · exact c5_list_item_emission.2.1 (String.toList "text") [' '] ['1', '2']
      (by decide) (by decide)
      (by intro c hc; simp at hc; rw [← hc]; decide)
      (by intro c hc; simp at hc; rw [← hc]; decide)
      (by decide) (by intro c hc; simp at hc; rw [hc]; decide)
      (by decide) (by intro c hc; simp at hc; rcases hc with rfl | rfl <;> decide)

/-! ### Claim C9 -/

theorem glyphGo_append {m : List Char} (run rest : List Char)
    (hm : ∀ c ∈ m, isGlyph c = true) :
    glyphGo run (m ++ rest) = glyphGo (m.reverse ++ run) rest := by
  induction m generalizing run with
  | nil => simp
  | cons a as ih =>
    have ha : isGlyph a = true := hm a (by simp)
    simp only [List.cons_append, glyphGo, ha, if_pos, List.append_eq]
    rw [ih (a :: run) (fun c hc => hm c (by simp [hc]))]
    congr 1
    simp

theorem glyphEmit_big {m : List Char} (hlen : 4 ≤ m.length) :
    glyphEmit m.reverse = List.replicate (2 * m.length) '.' := by
  unfold glyphEmit
  rw [List.length_reverse]
  rw [if_pos hlen]

theorem doubleGlyphRuns_nil_case {m b : List Char}
    (hm : ∀ c ∈ m, isGlyph c = true) (hlen : 4 ≤ m.length)
    (hb : ∀ c, b.head? = some c → isGlyph c = false) :
    doubleGlyphRuns (m ++ b) =
      List.replicate (2 * m.length) '.' ++ doubleGlyphRuns b := by
  unfold doubleGlyphRuns
  rw [glyphGo_append [] b hm, List.append_nil]
  cases b with
  | nil =>
    simp only [glyphGo, glyphEmit_big hlen]
    simp [glyphEmit]
  | cons c cs =>
    have hc : isGlyph c = false := hb c rfl
    simp only [glyphGo, hc, Bool.false_eq_true, if_neg, not_false_iff,
      glyphEmit_big hlen]
    simp [glyphEmit]

theorem doubleGlyphRuns_append_aux (n : Nat) :
    ∀ a m b : List Char, a.length ≤ n →
      (∀ c ∈ m, isGlyph c = true) → 4 ≤ m.length →
      (∀ c, a.getLast? = some c → isGlyph c = false) →
      (∀ c, b.head? = some c → isGlyph c = false) →
      doubleGlyphRuns (a ++ m ++ b) =
        doubleGlyphRuns a ++ List.replicate (2 * m.length) '.' ++
          doubleGlyphRuns b := by
  induction n with
  | zero =>
    intro a m b hlen hm hmlen ha hb
    have : a = [] := List.length_eq_zero.mp (Nat.le_zero.mp hlen)
    subst this
    simpa using doubleGlyphRuns_nil_case hm hmlen hb
  | succ n ih =>
    intro a m b hlen hm hmlen ha hb
    cases hae : a with
    | nil =>
      subst hae
      simpa using doubleGlyphRuns_nil_case hm hmlen hb
    | cons x a2 =>
      subst hae
      rcases hgx : isGlyph x with _ | _
      · -- x is not a glyph: emit it and recurse on a2
        have heq : doubleGlyphRuns (x :: a2 ++ m ++ b) =
            x :: doubleGlyphRuns (a2 ++ m ++ b) := by
          unfold doubleGlyphRuns
          simp [glyphGo, hgx, glyphEmit]
        have heq2 : doubleGlyphRuns (x :: a2) = x :: doubleGlyphRuns a2 := by
          unfold doubleGlyphRuns
          simp [glyphGo, hgx, glyphEmit]
        have ha2 : ∀ c, a2.getLast? = some c → isGlyph c = false := by
          intro c hc
          cases a2 with
          | nil => simp at hc
          | cons y ys => exact ha c (by rwa [List.getLast?_cons_cons])
        have h2 : a2.length ≤ n := by
          simp only [List.length_cons] at hlen
          omega
        rw [heq, heq2, ih a2 m b h2 hm hmlen ha2 hb]
        simp
      · -- x is a glyph: the run x :: takeWhile extends inside a
        have hrest : a2.dropWhile isGlyph ≠ [] := by
          intro hnil
          have hall : ∀ c ∈ a2, isGlyph c = true :=
            List.dropWhile_eq_nil_iff.mp hnil
          have hne : x :: a2 ≠ [] := by simp
          have hmem := List.getLast_mem hne
          have := ha _ (List.getLast?_eq_getLast_of_ne_nil hne)
          rcases List.mem_cons.mp hmem with heq | hmem2
          · rw [heq] at this
            exact absurd hgx (by simp [this])
          · rw [hall _ hmem2] at this
            exact absurd this (by simp)
        obtain ⟨y, ys, hys⟩ := List.exists_cons_of_ne_nil hrest
        have hy : isGlyph y = false :=
          head_dropWhile_false (l := a2) (p := isGlyph) (by rw [hys]; rfl)
        have hsplit : a2 = a2.takeWhile isGlyph ++ (y :: ys) := by
          rw [← hys]
          exact (List.takeWhile_append_dropWhile isGlyph a2).symm
        have hk : ∀ c ∈ x :: a2.takeWhile isGlyph, isGlyph c = true := by
          intro c hc
          rcases List.mem_cons.mp hc with rfl | hc2
          · exact hgx
          · exact List.mem_takeWhile_imp hc2
        have hys_last : ∀ c, ys.getLast? = some c → isGlyph c = false := by
          intro c hc
          have hysne : ys ≠ [] := by
            intro hnil
            rw [hnil] at hc
            simp at hc
          apply ha
          rw [hsplit]
          show ((x :: a2.takeWhile isGlyph) ++ (y :: ys)).getLast? = some c
          obtain ⟨z, zs, rfl⟩ := List.exists_cons_of_ne_nil hysne
          rw [List.getLast?_append_of_ne_nil _ (by simp), List.getLast?_cons_cons]
          exact hc
        have hlen2 : ys.length ≤ n := by
          have h3 : a2.length = (a2.takeWhile isGlyph).length + (ys.length + 1) := by
            conv_lhs => rw [hsplit]
            rw [List.length_append, List.length_cons]
          simp only [List.length_cons] at hlen
          omega
        have hrun : x :: a2 ++ m ++ b =
            (x :: a2.takeWhile isGlyph) ++ (y :: (ys ++ m ++ b)) := by
          conv_lhs => rw [hsplit]
          simp
        have hrunL : x :: a2 = (x :: a2.takeWhile isGlyph) ++ (y :: ys) := by
          conv_lhs => rw [hsplit]
          simp
        have heq : doubleGlyphRuns (x :: a2 ++ m ++ b) =
            glyphEmit (x :: a2.takeWhile isGlyph).reverse ++
              y :: doubleGlyphRuns (ys ++ m ++ b) := by
          unfold doubleGlyphRuns
          rw [hrun, glyphGo_append _ _ hk]
          simp [glyphGo, hy]
        have heq2 : doubleGlyphRuns (x :: a2) =
            glyphEmit (x :: a2.takeWhile isGlyph).reverse ++
              y :: doubleGlyphRuns ys := by
          unfold doubleGlyphRuns
          rw [hrunL, glyphGo_append _ _ hk]
          simp [glyphGo, hy]
        rw [heq, heq2, ih ys m b hlen2 hm hmlen hys_last hb]
        simp

/-- Compositional form of the glyph-run doubling: a maximal run of four or
more fill glyphs is replaced by twice as many dots. -/
theorem doubleGlyphRuns_append {a m b : List Char}
    (hm : ∀ c ∈ m, isGlyph c = true) (hlen : 4 ≤ m.length)
    (ha : ∀ c, a.getLast? = some c → isGlyph c = false)
    (hb : ∀ c, b.head? = some c → isGlyph c = false) :
    doubleGlyphRuns (a ++ m ++ b) =
      doubleGlyphRuns a ++ List.replicate (2 * m.length) '.' ++
        doubleGlyphRuns b :=
  doubleGlyphRuns_append_aux a.length a m b (Nat.le_refl _) hm hlen ha hb

theorem dCC_space (cs2 : List Char) :
    dotChainCount ('.' :: ' ' :: cs2) =
      ((dotChainCount cs2).1 + 1, (dotChainCount cs2).2) := rfl

theorem dCC_dotdot (cs2 : List Char) :
    dotChainCount ('.' :: '.' :: cs2) =
      ((dotChainCount ('.' :: cs2)).1 + 1, (dotChainCount ('.' :: cs2)).2) := rfl

theorem dCC_nospace {c2 : Char} (cs2 : List Char) (h2 : c2 ≠ ' ') :
    dotChainCount ('.' :: c2 :: cs2) =
      ((dotChainCount (c2 :: cs2)).1 + 1, (dotChainCount (c2 :: cs2)).2) := by
  conv_lhs => rw [dotChainCount.eq_def]
  simp only []
  rw [if_pos trivial]
  rw [if_neg h2]

theorem dCC_other {c2 : Char} (cs2 : List Char) (h2 : c2 ≠ ' ') (h3 : c2 ≠ '.') :
    dotChainCount ('.' :: c2 :: cs2) = (1, c2 :: cs2) := by
  rw [dCC_nospace cs2 h2, dotChainCount_of_head_ne h3]

theorem dCC_len_aux (n : Nat) :
    ∀ l : List Char, l.length ≤ n →
      (dotChainCount l).1 + (dotChainCount l).2.length ≤ l.length := by
  induction n with
  | zero =>
    intro l hl
    have : l = [] := List.length_eq_zero.mp (Nat.le_zero.mp hl)
    subst this
    simp [dotChainCount]
  | succ n ih =>
    intro l hl
    cases l with
    | nil => simp [dotChainCount]
    | cons c cs =>
      by_cases hc : c = '.'
      · subst hc
        cases cs with
        | nil => simp [dotChainCount]
        | cons c2 cs2 =>
          by_cases h2 : c2 = ' '
          · subst h2
            have hrec := ih cs2 (by simp at hl; omega)
            rw [dCC_space]
            simp only [List.length_cons]
            omega
          · by_cases h3 : c2 = '.'
            · subst h3
              have hrec := ih ('.' :: cs2) (by simp at hl ⊢; omega)
              rw [dCC_dotdot]
              simp only [List.length_cons] at hrec ⊢
              omega
            · rw [dCC_other cs2 h2 h3]
              simp only [List.length_cons]
              omega
      · rw [dotChainCount_of_head_ne hc]
        simp

theorem dCC_len (l : List Char) :
    (dotChainCount l).1 + (dotChainCount l).2.length ≤ l.length :=
  dCC_len_aux l.length l (Nat.le_refl _)

theorem dCC_suffix_aux (n : Nat) :
    ∀ l : List Char, l.length ≤ n → (dotChainCount l).2 <:+ l := by
  induction n with
  | zero =>
    intro l hl
    have : l = [] := List.length_eq_zero.mp (Nat.le_zero.mp hl)
    subst this
    simp [dotChainCount]
  | succ n ih =>
    intro l hl
    cases l with
    | nil => simp [dotChainCount]
    | cons c cs =>
      by_cases hc : c = '.'
      · subst hc
        cases cs with
        | nil =>
          show (dotChainCount ['.']).2 <:+ ['.']
          simp [dotChainCount]
        | cons c2 cs2 =>
          by_cases h2 : c2 = ' '
          · subst h2
            rw [dCC_space]
            have hrec := ih cs2 (by simp at hl; omega)
            exact hrec.trans ((List.suffix_cons ' ' cs2).trans
              (List.suffix_cons '.' (' ' :: cs2)))
          · by_cases h3 : c2 = '.'
            · subst h3
              rw [dCC_dotdot]
              have hrec := ih ('.' :: cs2) (by simp at hl ⊢; omega)
              exact hrec.trans (List.suffix_cons '.' ('.' :: cs2))
            · rw [dCC_other cs2 h2 h3]
              exact List.suffix_cons '.' (c2 :: cs2)
      · rw [dotChainCount_of_head_ne hc]

theorem dCC_suffix (l : List Char) : (dotChainCount l).2 <:+ l :=
  dCC_suffix_aux l.length l (Nat.le_refl _)

/-- Stability of the greedy chain parse under appending: when a string does
not end with a dot or a space, its chain parse is unchanged by whatever
follows, and its remainder is nonempty. -/
theorem dCC_append_aux (n : Nat) :
    ∀ s t : List Char, s.length ≤ n → s ≠ [] →
      (∀ c, s.getLast? = some c → c ≠ '.' ∧ c ≠ ' ') →
      dotChainCount (s ++ t) = ((dotChainCount s).1, (dotChainCount s).2 ++ t) ∧
        (dotChainCount s).2 ≠ [] := by
  induction n with
  | zero =>
    intro s t hl hne
    exact absurd (List.length_eq_zero.mp (Nat.le_zero.mp hl)) hne
  | succ n ih =>
    intro s t hl hne hlast
    obtain ⟨c1, s1, rfl⟩ := List.exists_cons_of_ne_nil hne
    by_cases h1 : c1 = '.'
    · subst h1
      cases s1 with
      | nil => exact absurd rfl (hlast '.' rfl).1
      | cons c2 s2 =>
        by_cases h2 : c2 = ' '
        · subst h2
          cases s2 with
          | nil => exact absurd rfl (hlast ' ' (by decide)).2
          | cons c3 s3 =>
            have hlast2 : ∀ c, (c3 :: s3).getLast? = some c → c ≠ '.' ∧ c ≠ ' ' := by
              intro c hc
              exact hlast c (by rw [List.getLast?_cons_cons, List.getLast?_cons_cons]; exact hc)
            obtain ⟨hEq, hNe⟩ := ih (c3 :: s3) t (by simp at hl ⊢; omega)
              (by simp) hlast2
            constructor
            · show dotChainCount ('.' :: ' ' :: ((c3 :: s3) ++ t)) = _
              rw [dCC_space, hEq, dCC_space]
            · rw [dCC_space]
              exact hNe
        · by_cases h3 : c2 = '.'
          · subst h3
            have hlast2 : ∀ c, ('.' :: s2).getLast? = some c → c ≠ '.' ∧ c ≠ ' ' := by
              intro c hc
              cases s2 with
              | nil =>
                simp at hc
                exact absurd rfl (hc ▸ hlast '.' (by decide)).1
              | cons c4 s4 => exact hlast c (by rw [List.getLast?_cons_cons]; exact hc)
            obtain ⟨hEq, hNe⟩ := ih ('.' :: s2) t (by simp at hl ⊢; omega)
              (by simp) hlast2
            rw [List.cons_append] at hEq
            constructor
            · show dotChainCount ('.' :: '.' :: (s2 ++ t)) = _
              rw [dCC_dotdot, hEq, dCC_dotdot]
            · rw [dCC_dotdot]
              exact hNe
          · constructor
            · show dotChainCount ('.' :: c2 :: (s2 ++ t)) = _
              rw [dCC_other (s2 ++ t) h2 h3, dCC_other s2 h2 h3]
              simp
            · rw [dCC_other s2 h2 h3]
              simp
    · constructor
      · rw [List.cons_append, dotChainCount_of_head_ne h1,
          dotChainCount_of_head_ne h1]
        rfl
      · rw [dotChainCount_of_head_ne h1]
        simp

/-- Fuel irrelevance for `dotScan`: any fuel at least the input length gives
the same result. -/
theorem dotScan_fuel_aux (n : Nat) :
    ∀ (l : List Char) (f1 f2 : Nat), l.length ≤ n →
      l.length ≤ f1 → l.length ≤ f2 → dotScan f1 l = dotScan f2 l := by
  induction n with
  | zero =>
    intro l f1 f2 hn _ _
    have : l = [] := List.length_eq_zero.mp (Nat.le_zero.mp hn)
    subst this
    cases f1 <;> cases f2 <;> rfl
  | succ n ih =>
    intro l f1 f2 hn h1 h2
    cases l with
    | nil => cases f1 <;> cases f2 <;> rfl
    | cons c cs =>
      simp only [List.length_cons] at hn h1 h2
      cases f1 with
      | zero => omega
      | succ g1 =>
        cases f2 with
        | zero => omega
        | succ g2 =>
          simp only [dotScan]
          by_cases hbr : (dotChainCount (c :: cs)).1 ≥ 130
          · rw [if_pos hbr, if_pos hbr]
            have hlen := dCC_len (c :: cs)
            simp only [List.length_cons] at hlen
            congr 1
            exact ih _ g1 g2 (by omega) (by omega) (by omega)
          · rw [if_neg hbr, if_neg hbr]
            congr 1
            exact ih cs g1 g2 (by omega) (by omega) (by omega)

theorem dotScan_fuel {l : List Char} {fuel : Nat} (h : l.length ≤ fuel) :
    dotScan fuel l = collapseDotLeaders l :=
  dotScan_fuel_aux l.length l fuel l.length (Nat.le_refl _) h (Nat.le_refl _)

theorem getLast?_of_suffix {s l : List Char} (hs : s <:+ l) (hne : s ≠ []) :
    l.getLast? = s.getLast? := by
  obtain ⟨u, hu⟩ := hs
  rw [← hu, List.getLast?_append_of_ne_nil u hne]

/-- Compositional form of the dot-leader collapsing: a maximal greedy
`(\. ?)` chain of 130 or more dots is replaced by `dotBlock`. -/
theorem collapseDotLeaders_nil_case {m b : List Char} {nDots : Nat}
    (hchain : dotChainCount (m ++ b) = (nDots, b)) (hbig : 130 ≤ nDots) :
    collapseDotLeaders (m ++ b) = dotBlock ++ collapseDotLeaders b := by
  have hm : m ≠ [] := by
    intro hm0
    subst hm0
    have := dCC_len b
    rw [List.nil_append] at hchain
    rw [hchain] at this
    simp at this
    omega
  obtain ⟨c, m2, rfl⟩ := List.exists_cons_of_ne_nil hm
  have hlenchain := dCC_len ((c :: m2) ++ b)
  rw [hchain] at hlenchain
  simp only [List.length_append, List.length_cons] at hlenchain
  rw [List.cons_append] at hchain
  have hf : (dotChainCount (c :: (m2 ++ b))).1 = nDots := by rw [hchain]
  have hsnd : (dotChainCount (c :: (m2 ++ b))).2 = b := by rw [hchain]
  unfold collapseDotLeaders
  simp only [List.cons_append, List.length_cons, List.append_eq, dotScan]
  rw [if_pos (by rw [hf]; exact hbig), hsnd]
  congr 1
  rw [dotScan_fuel (by simp only [List.length_append]; omega)]
  rfl

theorem collapseDotLeaders_append_aux (k : Nat) :
    ∀ a m b nDots, a.length ≤ k →
      dotChainCount (m ++ b) = (nDots, b) → 130 ≤ nDots →
      (∀ c, a.getLast? = some c → c ≠ '.' ∧ c ≠ ' ') →
      collapseDotLeaders (a ++ m ++ b) =
        collapseDotLeaders a ++ dotBlock ++ collapseDotLeaders b := by
  induction k with
  | zero =>
    intro a m b nDots hk hchain hbig hlast
    have ha : a = [] := List.length_eq_zero.mp (Nat.le_zero.mp hk)
    subst ha
    simpa using collapseDotLeaders_nil_case hchain hbig
  | succ k ih =>
    intro a m b nDots hk hchain hbig hlast
    cases a with
    | nil => simpa using collapseDotLeaders_nil_case hchain hbig
    | cons x a2 =>
      obtain ⟨hEq, hNe⟩ := dCC_append_aux (x :: a2).length (x :: a2) (m ++ b)
        (Nat.le_refl _) (by simp) hlast
      rw [List.cons_append] at hEq
      have hEqFst : (dotChainCount (x :: (a2 ++ (m ++ b)))).1 =
          (dotChainCount (x :: a2)).1 := by rw [hEq]
      have hEqSnd : (dotChainCount (x :: (a2 ++ (m ++ b)))).2 =
          (dotChainCount (x :: a2)).2 ++ (m ++ b) := by rw [hEq]
      have hsuf : (dotChainCount (x :: a2)).2 <:+ x :: a2 := dCC_suffix _
      have hlenA := dCC_len (x :: a2)
      simp only [List.length_cons] at hlenA
      by_cases hbr : (dotChainCount (x :: a2)).1 ≥ 130
      · have hLHS : collapseDotLeaders ((x :: a2) ++ m ++ b) =
            dotBlock ++
              collapseDotLeaders ((dotChainCount (x :: a2)).2 ++ m ++ b) := by
          unfold collapseDotLeaders
          simp only [List.cons_append, List.append_assoc, List.length_cons,
            List.append_eq, dotScan]
          rw [if_pos (by rw [hEqFst]; exact hbr), hEqSnd]
          congr 1
          rw [dotScan_fuel (by
            have hs := hsuf.length_le
            simp only [List.length_cons] at hs
            simp only [List.length_append]
            omega)]
          rfl
        have hRHS : collapseDotLeaders (x :: a2) =
            dotBlock ++ collapseDotLeaders (dotChainCount (x :: a2)).2 := by
          unfold collapseDotLeaders
          simp only [List.length_cons, dotScan]
          rw [if_pos hbr]
          congr 1
          rw [dotScan_fuel (by omega)]
          rfl
        have hlast2 : ∀ c, (dotChainCount (x :: a2)).2.getLast? = some c →
            c ≠ '.' ∧ c ≠ ' ' := by
          intro c hc
          exact hlast c (by rw [getLast?_of_suffix hsuf hNe]; exact hc)
        have hlen2 : (dotChainCount (x :: a2)).2.length ≤ k := by
          simp only [List.length_cons] at hk
          omega
        rw [hLHS, hRHS, ih _ m b nDots hlen2 hchain hbig hlast2]
        simp
      · have hLHS : collapseDotLeaders ((x :: a2) ++ m ++ b) =
            x :: collapseDotLeaders (a2 ++ m ++ b) := by
          unfold collapseDotLeaders
          simp only [List.cons_append, List.append_assoc, List.length_cons,
            List.append_eq, dotScan]
          rw [if_neg (by rw [hEqFst]; exact hbr)]
        have hRHS : collapseDotLeaders (x :: a2) = x :: collapseDotLeaders a2 := by
          unfold collapseDotLeaders
          simp only [List.length_cons, dotScan]
          rw [if_neg hbr]
        have hlast2 : ∀ c, a2.getLast? = some c → c ≠ '.' ∧ c ≠ ' ' := by
          intro c hc
          cases a2 with
          | nil => simp at hc
          | cons y ys => exact hlast c (by rwa [List.getLast?_cons_cons])
        have hlen2 : a2.length ≤ k := by
          simp only [List.length_cons] at hk
          omega
        rw [hLHS, hRHS, ih a2 m b nDots hlen2 hchain hbig hlast2]
        simp

set_option maxRecDepth 16000 in
/-- C9: every maximal run of four or more fill glyphs is replaced by twice
as many dots, and afterwards every maximal greedy `(\. ?)` chain of 130 or
more dots is replaced by a blank line, 150 dots and a blank line; with the
spec's two concrete examples. -/
theorem c9_fill_in_blank_normalization :
    (∀ a m b : List Char, (∀ c ∈ m, isGlyph c = true) → 4 ≤ m.length →
      (∀ c, a.getLast? = some c → isGlyph c = false) →
      (∀ c, b.head? = some c → isGlyph c = false) →
      doubleGlyphRuns (a ++ m ++ b) =
        doubleGlyphRuns a ++ List.replicate (2 * m.length) '.' ++
          doubleGlyphRuns b) ∧
    (∀ (a m b : List Char) (nDots : Nat),
      dotChainCount (m ++ b) = (nDots, b) → 130 ≤ nDots →
      (∀ c, a.getLast? = some c → c ≠ '.' ∧ c ≠ ' ') →
      collapseDotLeaders (a ++ m ++ b) =
        collapseDotLeaders a ++ dotBlock ++ collapseDotLeaders b) ∧
    doubleGlyphRuns (String.toList "____") = List.replicate 8 '.' ∧
    collapseDotLeaders (List.flatten (List.replicate 140 ['.', ' '])) =
      dotBlock := by
  refine ⟨fun a m b hm hlen ha hb => doubleGlyphRuns_append hm hlen ha hb,
    fun a m b nDots hchain hbig hlast =>
      collapseDotLeaders_append_aux a.length a m b nDots (Nat.le_refl _)
        hchain hbig hlast,
    by decide, by decide⟩

set_option maxRecDepth 16000 in
/-- Witness for `c9_fill_in_blank_normalization`: a concrete glyph run of
four characters between non-glyph text, and a concrete 130-dot chain between
text that does not extend it. -/
theorem c9_witness :
    doubleGlyphRuns (String.toList "a" ++ String.toList "__…▁" ++
        String.toList "b") =
      doubleGlyphRuns (String.toList "a") ++ List.replicate 8 '.' ++
        doubleGlyphRuns (String.toList "b") ∧
    collapseDotLeaders (String.toList "x" ++ List.replicate 130 '.' ++
        String.toList "y") =
      collapseDotLeaders (String.toList "x") ++ dotBlock ++
        collapseDotLeaders (String.toList "y") := by
  constructor
  · have h := c9_fill_in_blank_normalization.1 (String.toList "a")
      (String.toList "__…▁") (String.toList "b")
      (by intro c hc; simp at hc; rcases hc with rfl | rfl | rfl | rfl <;> decide)
      (by decide)
      (by intro c hc; simp at hc; subst hc; decide)
      (by intro c hc; simp at hc; subst hc; decide)
    simpa using h
  · exact c9_fill_in_blank_normalization.2.1 (String.toList "x")
      (List.replicate 130 '.') (String.toList "y") 130 (by decide) (by decide)
      (by intro c hc; simp at hc; subst hc; decide)

/-! ### Grid invariants, shared by the table claims -/

theorem mem_of_getElem_opt {α : Type} {l : List α} {n : Nat} {a : α}
    (h : l[n]? = some a) : a ∈ l := by
  obtain ⟨hn, rfl⟩ := List.getElem?_eq_some.mp h
  exact List.getElem_mem hn

theorem foldl_preserve_mem {α β : Type} (P : β → Prop) (f : β → α → β) :
    ∀ (l : List α) (b : β), P b →
      (∀ b2 a, a ∈ l → P b2 → P (f b2 a)) → P (l.foldl f b) := by
  intro l
  induction l with
  | nil => intro b hb _; exact hb
  | cons a as ih =>
    intro b hb hstep
    exact ih (f b a) (hstep b a (by simp) hb)
      (fun b2 a2 ha2 hb2 => hstep b2 a2 (List.mem_cons_of_mem a ha2) hb2)

theorem foldlM_preserve {α β : Type} (P : β → Prop) (f : β → α → Except Unit β) :
    ∀ (l : List α) (b b2 : β), P b →
      (∀ b1 a b3, a ∈ l → P b1 → f b1 a = .ok b3 → P b3) →
      l.foldlM f b = .ok b2 → P b2 := by
  intro l
  induction l with
  | nil =>
    intro b b2 hb _ hres
    simp only [List.foldlM_nil] at hres
    cases hres
    exact hb
  | cons a as ih =>
    intro b b2 hb hstep hres
    rw [List.foldlM_cons] at hres
    cases hfa : f b a with
    | error e =>
      rw [hfa] at hres
      simp [Bind.bind, Except.bind] at hres
    | ok b1 =>
      rw [hfa] at hres
      simp only [Bind.bind, Except.bind] at hres
      exact ih b1 b2 (hstep b a b1 (by simp) hb hfa)
        (fun b3 a2 b4 ha2 hb3 hf => hstep b3 a2 b4
          (List.mem_cons_of_mem a ha2) hb3 hf) hres

theorem pyIndex_lt {len : Nat} {i : Int} {n : Nat}
    (h : pyIndex len i = some n) : n < len := by
  unfold pyIndex at h
  split at h
  · next h1 => simp at h; omega
  · split at h
    · next h2 => simp at h; omega
    · simp at h

theorem pySet_some {α : Type} {l : List α} {i : Int} {v : α} {l2 : List α}
    (h : pySet l i v = some l2) : ∃ n, n < l.length ∧ l2 = l.set n v := by
  unfold pySet at h
  cases hpi : pyIndex l.length i with
  | none => rw [hpi] at h; simp at h
  | some n =>
    rw [hpi] at h
    have h2 : some (l.set n v) = some l2 := h
    cases h2
    exact ⟨n, pyIndex_lt hpi, rfl⟩

theorem gridSet_some {g : Grid} {r : Nat} {c : Int} {v : Option (List Char)}
    {g2 : Grid} (h : gridSet g r c v = some g2) :
    ∃ row n, g[r]? = some row ∧ n < row.length ∧ g2 = g.set r (row.set n v) := by
  unfold gridSet at h
  cases hgr : g[r]? with
  | none => rw [hgr] at h; simp at h
  | some row =>
    rw [hgr] at h
    simp only [] at h
    cases hps : pySet row c v with
    | none => rw [hps] at h; simp at h
    | some row2 =>
      rw [hps] at h
      have h2 : some (g.set r row2) = some g2 := h
      cases h2
      obtain ⟨n, hn, rfl⟩ := pySet_some hps
      exact ⟨row, n, rfl, hn, rfl⟩

theorem gridSet_dims {g : Grid} {cols : Nat} {r : Nat} {c : Int}
    {v : Option (List Char)} {g2 : Grid} (hd : GridDims g cols)
    (h : gridSet g r c v = some g2) : GridDims g2 cols := by
  obtain ⟨row, n, hrow, _, rfl⟩ := gridSet_some h
  intro row2 hrow2
  rcases List.mem_or_eq_of_mem_set hrow2 with hmem | rfl
  · exact hd row2 hmem
  · rw [List.length_set]
    exact hd row (mem_of_getElem_opt hrow)

theorem gridSet_noPipe {g : Grid} {r : Nat} {c : Int} {v : Option (List Char)}
    {g2 : Grid} (hp : GridNoPipe g) (hv : ∀ s, v = some s → '|' ∉ s)
    (h : gridSet g r c v = some g2) : GridNoPipe g2 := by
  obtain ⟨row, n, hrow, _, rfl⟩ := gridSet_some h
  intro row2 hrow2 cell hcell s hs
  rcases List.mem_or_eq_of_mem_set hrow2 with hmem | rfl
  · exact hp row2 hmem cell hcell s hs
  · rcases List.mem_or_eq_of_mem_set hcell with hmem2 | rfl
    · exact hp row (mem_of_getElem_opt hrow) cell hmem2 s hs
    · exact hv s hs

theorem gridSet_length {g : Grid} {r : Nat} {c : Int} {v : Option (List Char)}
    {g2 : Grid} (h : gridSet g r c v = some g2) : g2.length = g.length := by
  obtain ⟨row, n, hrow, _, rfl⟩ := gridSet_some h
  exact List.length_set g r _

theorem fillExtent_inv {cols : Nat} {g : Grid} {rowIdx : Nat} {colIdx : Int}
    {value : List Char} {rs cs : Int} (hi : GridInv cols g)
    (hv : '|' ∉ value) :
    GridInv cols (fillExtent g rowIdx colIdx value rs cs) := by
  unfold fillExtent
  refine foldl_preserve_mem (P := GridInv cols) _ _ _ hi ?_
  intro g1 r _ hg1
  refine foldl_preserve_mem (P := GridInv cols) _ _ _ hg1 ?_
  intro g2 c2 _ hg2
  cases hset : gridSet g2 (rowIdx + r) (colIdx + (c2 : Int))
      (some (if r = 0 ∧ c2 = 0 then value else [])) with
  | none => simpa [hset] using hg2
  | some g3 =>
    simp only [hset]
    refine ⟨gridSet_dims hg2.1 hset, gridSet_noPipe hg2.2 ?_ hset⟩
    intro s hs
    cases hs
    split
    · exact hv
    · simp

theorem sanitizeCell_no_pipe (t : List Char) : '|' ∉ sanitizeCell t := by
  intro hmem
  have h1 := mem_of_mem_strip hmem
  simp only [List.mem_map] at h1
  obtain ⟨c1, _, hc1⟩ := h1
  by_cases hq : c1 = '|'
  · rw [if_pos hq] at hc1
    exact absurd hc1 (by decide)
  · rw [if_neg hq] at hc1
    exact absurd hc1 hq

theorem fillCell_inv {cols : Nat} {tc : Int} {rowIdx : Nat}
    {st st2 : Grid × Int} {cell : Cell} (hi : GridInv cols st.1)
    (h : fillCell tc rowIdx st cell = .ok st2) : GridInv cols st2.1 := by
  unfold fillCell at h
  cases hskip : skipFilled (st.1[rowIdx]?.getD []) tc st.2 with
  | error e => rw [hskip] at h; simp [Bind.bind, Except.bind] at h
  | ok colIdx =>
    rw [hskip] at h
    simp only [Bind.bind, Except.bind] at h
    split at h
    · cases h
      exact hi
    · cases h
      exact fillExtent_inv hi (sanitizeCell_no_pipe _)

theorem fillGridGo_inv {cols : Nat} {tc : Int} :
    ∀ (rows : List (List Cell)) (rowIdx : Nat) (g g2 : Grid),
      GridInv cols g → fillGridGo tc rowIdx g rows = .ok g2 →
      GridInv cols g2 := by
  intro rows
  induction rows with
  | nil =>
    intro rowIdx g g2 hi h
    simp only [fillGridGo] at h
    cases h
    exact hi
  | cons row rest ih =>
    intro rowIdx g g2 hi h
    simp only [fillGridGo] at h
    cases hrow : fillRow tc rowIdx g row with
    | error e => rw [hrow] at h; simp [Bind.bind, Except.bind] at h
    | ok gmid =>
      rw [hrow] at h
      simp only [Bind.bind, Except.bind] at h
      refine ih (rowIdx + 1) gmid g2 ?_ h
      unfold fillRow at hrow
      cases hfold : List.foldlM (fillCell tc rowIdx) (g, (0 : Int)) row with
      | error e => rw [hfold] at hrow; simp [Except.map] at hrow
      | ok st =>
        rw [hfold] at hrow
        simp only [Except.map] at hrow
        cases hrow
        exact foldlM_preserve (P := fun st => GridInv cols st.1) _ row (g, 0) st
          hi (fun st1 cell st3 _ h1 hf => fillCell_inv h1 hf) hfold

theorem fillGrid_inv {t : List (List Cell)} {g : Grid}
    (h : fillGrid t = .ok g) : GridInv (totalCols t).toNat g := by
  unfold fillGrid at h
  refine fillGridGo_inv t 0 _ g ⟨?_, ?_⟩ h
  · intro row hrow
    rw [List.eq_of_mem_replicate hrow]
    exact List.length_replicate _ _
  · intro row hrow cell hcell s hs
    rw [List.eq_of_mem_replicate hrow] at hcell
    rw [List.eq_of_mem_replicate hcell] at hs
    cases hs

/-! ### Claim C10 -/

theorem intercalate_pipe_cons_cons (s s2 : List Char) (rest : List (List Char)) :
    List.intercalate ['|'] (s :: s2 :: rest) =
      s ++ '|' :: List.intercalate ['|'] (s2 :: rest) := by
  simp [List.intercalate, List.intersperse]

theorem intercalate_pipe_singleton (s : List Char) :
    List.intercalate ['|'] [s] = s := by
  simp [List.intercalate]

theorem count_intercalate_pipes :
    ∀ segs : List (List Char), (∀ s ∈ segs, '|' ∉ s) →
      (List.intercalate ['|'] segs).count '|' = segs.length - 1
  | [], _ => by simp [List.intercalate]
  | [s], h => by
    rw [intercalate_pipe_singleton]
    simp [List.count_eq_zero.mpr (h s (by simp))]
  | s :: s2 :: rest, h => by
    rw [intercalate_pipe_cons_cons]
    rw [List.count_append, List.count_cons]
    rw [List.count_eq_zero.mpr (h s (by simp))]
    rw [count_intercalate_pipes (s2 :: rest) (fun x hx => h x (by simp [hx]))]
    simp

theorem count_pipe_line {segs : List (List Char)} (h : ∀ s ∈ segs, '|' ∉ s)
    (hne : segs ≠ []) :
    ('|' :: (List.intercalate ['|'] segs ++ ['|'])).count '|' =
      segs.length + 1 := by
  rw [List.count_cons, List.count_append, count_intercalate_pipes segs h]
  have : segs.length ≥ 1 := by
    cases segs with
    | nil => exact absurd rfl hne
    | cons a as => simp
  simp
  omega

theorem colWidths_length {cols : Nat} {g : Grid} (hd : GridDims g cols) :
    (colWidths cols g).length = cols := by
  unfold colWidths
  refine foldl_preserve_mem (P := fun ws => ws.length = cols) _ g
    (List.replicate cols 0) (List.length_replicate _ _) ?_
  intro ws row hrow hws
  rw [List.length_map, List.length_zip, hws, hd row hrow]
  simp

theorem dataCellSeg_no_pipe {w : Nat} {cell : Option (List Char)}
    (h : ∀ s, cell = some s → '|' ∉ s) : '|' ∉ dataCellSeg w cell := by
  have hs : '|' ∉ cell.getD [] := by
    cases cell with
    | none => simp
    | some s => exact h s rfl
  intro hmem
  simp [dataCellSeg, List.mem_replicate] at hmem
  exact hs hmem

theorem dataLine_form (ws : List Nat) (row : List (Option (List Char))) :
    dataLine ws row =
      '|' :: (List.intercalate ['|'] ((ws.zip row).map fun p => dataCellSeg p.1 p.2)
        ++ ['|']) := by
  simp [dataLine]

theorem headerLine_form (ws : List Nat) :
    headerLine ws =
      '|' :: (List.intercalate ['|'] (ws.map fun w => List.replicate (w + 2) '-')
        ++ ['|']) := by
  simp [headerLine]

theorem buildLines_forms (ws : List Nat) :
    ∀ (flag : Bool) (g : Grid) (line : List Char),
      line ∈ buildLines ws flag g →
      (∃ row ∈ g, line = dataLine ws row) ∨ line = headerLine ws := by
  intro flag g
  induction g generalizing flag with
  | nil => intro line hline; simp [buildLines] at hline
  | cons row rest ih =>
    intro line hline
    unfold buildLines at hline
    split at hline
    · rcases ih flag line hline with ⟨r2, hr2, hl⟩ | hl
      · exact Or.inl ⟨r2, List.mem_cons_of_mem row hr2, hl⟩
      · exact Or.inr hl
    · split at hline
      · rcases List.mem_cons.mp hline with rfl | hline2
        · exact Or.inl ⟨row, by simp, rfl⟩
        · rcases ih true line hline2 with ⟨r2, hr2, hl⟩ | hl
          · exact Or.inl ⟨r2, List.mem_cons_of_mem row hr2, hl⟩
          · exact Or.inr hl
      · rcases List.mem_cons.mp hline with rfl | hline2
        · exact Or.inl ⟨row, by simp, rfl⟩
        · rcases List.mem_cons.mp hline2 with rfl | hline3
          · exact Or.inr rfl
          · rcases ih true line hline3 with ⟨r2, hr2, hl⟩ | hl
            · exact Or.inl ⟨r2, List.mem_cons_of_mem row hr2, hl⟩
            · exact Or.inr hl

/-- C10: with HTML-table passthrough disabled and `total_cols ≥ 1`, every
emitted table line (data rows and the dash separator) starts and ends with a
pipe and contains exactly `total_cols + 1` pipes, because every cell text
had pipes and newlines replaced by spaces before placement. -/
theorem c10_pipe_invariant (t : List (List Cell)) (g : Grid)
    (hok : fillGrid t = .ok g) (hcols : 1 ≤ totalCols t) :
    ∀ line ∈ tableLines t g,
      line.head? = some '|' ∧ line.getLast? = some '|' ∧
        line.count '|' = (totalCols t).toNat + 1 := by
  obtain ⟨hdims, hnopipe⟩ := fillGrid_inv hok
  have hwlen : (colWidths (totalCols t).toNat g).length = (totalCols t).toNat :=
    colWidths_length hdims
  have hcols2 : 1 ≤ (totalCols t).toNat := by omega
  intro line hline
  rcases buildLines_forms _ _ _ _ hline with ⟨row, hrow, rfl⟩ | rfl
  · set segs := ((colWidths (totalCols t).toNat g).zip row).map
      (fun p => dataCellSeg p.1 p.2) with hsegs
    have hsegsnp : ∀ s ∈ segs, '|' ∉ s := by
      intro s hs
      rw [hsegs] at hs
      simp only [List.mem_map] at hs
      obtain ⟨⟨w, cell⟩, hp, rfl⟩ := hs
      refine dataCellSeg_no_pipe ?_
      intro s2 hs2
      exact hnopipe row hrow cell (List.of_mem_zip hp).2 s2 hs2
    have hsegslen : segs.length = (totalCols t).toNat := by
      rw [hsegs, List.length_map, List.length_zip, hwlen, hdims row hrow]
      simp
    refine ⟨by rw [dataLine_form]; rfl, ?_, ?_⟩
    · rw [dataLine_form]
      rw [show ('|' :: (List.intercalate ['|'] segs ++ ['|'])) =
        ('|' :: List.intercalate ['|'] segs) ++ ['|'] by simp]
      exact List.getLast?_concat _
    · rw [dataLine_form, count_pipe_line hsegsnp (by
        intro h0
        rw [h0] at hsegslen
        simp at hsegslen
        omega), hsegslen]
  · set segs := (colWidths (totalCols t).toNat g).map
      (fun w => List.replicate (w + 2) '-') with hsegs
    have hsegsnp : ∀ s ∈ segs, '|' ∉ s := by
      intro s hs
      rw [hsegs] at hs
      simp only [List.mem_map] at hs
      obtain ⟨w, _, rfl⟩ := hs
      intro hx
      have := List.eq_of_mem_replicate hx
      simp at this
    have hsegslen : segs.length = (totalCols t).toNat := by
      rw [hsegs, List.length_map, hwlen]
    refine ⟨by rw [headerLine_form]; rfl, ?_, ?_⟩
    · rw [headerLine_form]
      rw [show ('|' :: (List.intercalate ['|'] segs ++ ['|'])) =
        ('|' :: List.intercalate ['|'] segs) ++ ['|'] by simp]
      exact List.getLast?_concat _
    · rw [headerLine_form, count_pipe_line hsegsnp (by
        intro h0
        rw [h0] at hsegslen
        simp at hsegslen
        omega), hsegslen]

/-- Witness for `c10_pipe_invariant` at a concrete two-by-two table. -/
theorem c10_witness :
    fillGrid [[⟨String.toList "P", 1, 1⟩, ⟨String.toList "Q|R", 1, 1⟩],
        [⟨String.toList "S", 1, 1⟩, ⟨String.toList "T", 1, 1⟩]] =
      .ok [[some (String.toList "P"), some (String.toList "Q R")],
        [some (String.toList "S"), some (String.toList "T")]] ∧
    ∀ line ∈ tableLines
        [[⟨String.toList "P", 1, 1⟩, ⟨String.toList "Q|R", 1, 1⟩],
          [⟨String.toList "S", 1, 1⟩, ⟨String.toList "T", 1, 1⟩]]
        [[some (String.toList "P"), some (String.toList "Q R")],
          [some (String.toList "S"), some (String.toList "T")]],
      line.head? = some '|' ∧ line.getLast? = some '|' ∧
        line.count '|' =
          (totalCols [[⟨String.toList "P", 1, 1⟩, ⟨String.toList "Q|R", 1, 1⟩],
            [⟨String.toList "S", 1, 1⟩, ⟨String.toList "T", 1, 1⟩]]).toNat + 1 := by
  constructor
  · rfl
  · exact c10_pipe_invariant _ _ (by rfl) (by decide)

/-! ### Second-pass machinery shared by the table claims -/

theorem fillExtent_eq_N (g : Grid) (rowIdx : Nat) (colIdx : Int)
    (value : List Char) (rs cs : Int) :
    fillExtent g rowIdx colIdx value rs cs =
      fillExtentN g rowIdx colIdx value rs.toNat cs.toNat := by
  unfold fillExtent fillExtentN writeRun
  rfl

theorem pyIndex_nonneg {len : Nat} {c : Int} {n : Nat}
    (h : pyIndex len c = some n) (hc : 0 ≤ c) :
    n = c.toNat ∧ c.toNat < len := by
  unfold pyIndex at h
  split at h
  · next h1 =>
    have h2 : some c.toNat = some n := h
    cases h2
    exact ⟨rfl, by omega⟩
  · split at h
    · next h2 =>
      have h3 : some ((len : Int) + c).toNat = some n := h
      cases h3
      omega
    · simp at h

theorem gridSet_ok (v : Option (List Char)) (c : Int) {cols : Nat} {g : Grid}
    {r : Nat} (hd : GridDims g cols) (hr : r < g.length)
    (hc : 0 ≤ c) (hcb : c < (cols : Int)) :
    ∃ g2, gridSet g r c v = some g2 := by
  obtain ⟨row, hgr⟩ : ∃ row, g[r]? = some row := ⟨_, List.getElem?_eq_getElem hr⟩
  have hlen : row.length = cols := hd row (mem_of_getElem_opt hgr)
  unfold gridSet
  rw [hgr]
  show ∃ g2, (pySet row c v).map (fun row2 => g.set r row2) = some g2
  unfold pySet pyIndex
  rw [hlen, if_pos ⟨hc, hcb⟩]
  exact ⟨_, rfl⟩

theorem gridSet_get {g g2 : Grid} {r : Nat} {c : Int} {v : Option (List Char)}
    (h : gridSet g r c v = some g2) (hc : 0 ≤ c) :
    gridGet g2 r c.toNat = some v ∧
    ∀ r2 c2 : Nat, ¬(r2 = r ∧ c2 = c.toNat) →
      gridGet g2 r2 c2 = gridGet g r2 c2 := by
  unfold gridSet at h
  cases hgr : g[r]? with
  | none => rw [hgr] at h; simp at h
  | some row =>
    rw [hgr] at h
    simp only [] at h
    cases hps : pySet row c v with
    | none => rw [hps] at h; simp at h
    | some row2 =>
      rw [hps] at h
      have h2 : some (g.set r row2) = some g2 := h
      cases h2
      unfold pySet at hps
      cases hpi : pyIndex row.length c with
      | none => rw [hpi] at hps; simp at hps
      | some n =>
        rw [hpi] at hps
        have h3 : some (row.set n v) = some row2 := hps
        cases h3
        obtain ⟨hn, hlt⟩ := pyIndex_nonneg hpi hc
        subst hn
        obtain ⟨hr, -⟩ := List.getElem?_eq_some.mp hgr
        constructor
        · simp [gridGet, List.getElem?_set_self hr, List.getElem?_set_self hlt]
        · intro r2 c2 hne
          unfold gridGet
          by_cases hrr : r2 = r
          · subst hrr
            have hcc : c2 ≠ c.toNat := fun hcc => hne ⟨rfl, hcc⟩
            rw [List.getElem?_set_self hr, hgr]
            simp [List.getElem?_set_ne (Ne.symm hcc)]
          · rw [List.getElem?_set_ne (fun hh => hrr hh.symm)]

theorem writeRun_succ (g : Grid) (row : Nat) (colIdx : Int)
    (f : Nat → List Char) (n : Nat) :
    writeRun g row colIdx f (n + 1) =
      (match gridSet (writeRun g row colIdx f n) row (colIdx + (n : Int))
          (some (f n)) with
       | some g3 => g3
       | none => writeRun g row colIdx f n) := by
  unfold writeRun
  rw [List.range_succ, List.foldl_append]
  rfl

theorem writeRun_dims (row : Nat) (colIdx : Int) (f : Nat → List Char)
    (n : Nat) {cols : Nat} {g : Grid} (hd : GridDims g cols) :
    GridDims (writeRun g row colIdx f n) cols ∧
      (writeRun g row colIdx f n).length = g.length := by
  unfold writeRun
  refine foldl_preserve_mem
    (P := fun g2 => GridDims g2 cols ∧ g2.length = g.length) _ _ _ ⟨hd, rfl⟩ ?_
  intro g2 c _ hg2
  cases hset : gridSet g2 row (colIdx + (c : Int)) (some (f c)) with
  | none => simpa [hset] using hg2
  | some g3 =>
    simp only [hset]
    exact ⟨gridSet_dims hg2.1 hset, (gridSet_length hset).trans hg2.2⟩

theorem fillExtentN_succ (g : Grid) (rowIdx : Nat) (colIdx : Int)
    (value : List Char) (R C : Nat) :
    fillExtentN g rowIdx colIdx value (R + 1) C =
      writeRun (fillExtentN g rowIdx colIdx value R C) (rowIdx + R) colIdx
        (fun c => if R = 0 ∧ c = 0 then value else []) C := by
  unfold fillExtentN
  rw [List.range_succ, List.foldl_append]
  rfl

theorem fillExtentN_dims (rowIdx : Nat) (colIdx : Int) (value : List Char)
    (R C : Nat) {cols : Nat} {g : Grid} (hd : GridDims g cols) :
    GridDims (fillExtentN g rowIdx colIdx value R C) cols ∧
      (fillExtentN g rowIdx colIdx value R C).length = g.length := by
  unfold fillExtentN
  refine foldl_preserve_mem
    (P := fun g2 => GridDims g2 cols ∧ g2.length = g.length) _ _ _ ⟨hd, rfl⟩ ?_
  intro g1 r _ hg1
  exact ⟨(writeRun_dims (rowIdx + r) colIdx _ C hg1.1).1,
    ((writeRun_dims (rowIdx + r) colIdx _ C hg1.1).2).trans hg1.2⟩

theorem fillExtent_dims (rowIdx : Nat) (colIdx : Int) (value : List Char)
    (rs cs : Int) {cols : Nat} {g : Grid} (hd : GridDims g cols) :
    GridDims (fillExtent g rowIdx colIdx value rs cs) cols ∧
      (fillExtent g rowIdx colIdx value rs cs).length = g.length := by
  rw [fillExtent_eq_N]
  exact fillExtentN_dims rowIdx colIdx value rs.toNat cs.toNat hd

theorem writeRun_get (row : Nat) (colIdx : Int) (f : Nat → List Char)
    (cols : Nat) :
    ∀ (n : Nat) (g : Grid), GridDims g cols → row < g.length → 0 ≤ colIdx →
      colIdx + (n : Int) ≤ (cols : Int) →
      ∀ r2 c2 : Nat,
        ((r2 = row ∧ colIdx.toNat ≤ c2 ∧ c2 < colIdx.toNat + n) →
          gridGet (writeRun g row colIdx f n) r2 c2 =
            some (some (f (c2 - colIdx.toNat)))) ∧
        (¬(r2 = row ∧ colIdx.toNat ≤ c2 ∧ c2 < colIdx.toNat + n) →
          gridGet (writeRun g row colIdx f n) r2 c2 = gridGet g r2 c2) := by
  intro n
  induction n with
  | zero =>
    intro g hd hr hc hcb r2 c2
    constructor
    · intro hcond
      omega
    · intro h2
      rfl
  | succ n ih =>
    intro g hd hr hc hcb r2 c2
    have hcb2 : colIdx + (n : Int) ≤ (cols : Int) := by omega
    obtain ⟨hdn, hln⟩ := writeRun_dims row colIdx f n hd
    have hrn : row < (writeRun g row colIdx f n).length := by omega
    obtain ⟨g2, hset⟩ := gridSet_ok (some (f n)) (colIdx + (n : Int)) hdn hrn
      (by omega) (by omega)
    have hrw : writeRun g row colIdx f (n + 1) = g2 := by
      rw [writeRun_succ, hset]
    obtain ⟨hat, hother⟩ := gridSet_get hset (by omega)
    have htn : (colIdx + (n : Int)).toNat = colIdx.toNat + n := by omega
    rw [hrw]
    constructor
    · rintro ⟨hcr, hcl, hcu⟩
      subst hcr
      by_cases hlast : c2 = colIdx.toNat + n
      · subst hlast
        rw [show colIdx.toNat + n - colIdx.toNat = n by omega, ← htn]
        exact hat
      · have hne : ¬(r2 = r2 ∧ c2 = (colIdx + (n : Int)).toNat) := by
          intro hx
          obtain ⟨-, hx2⟩ := hx
          omega
        rw [hother r2 c2 hne]
        exact (ih g hd hr hc hcb2 r2 c2).1 ⟨rfl, hcl, by omega⟩
    · intro hncond
      have hne : ¬(r2 = row ∧ c2 = (colIdx + (n : Int)).toNat) := by
        intro hx
        obtain ⟨hx1, hx2⟩ := hx
        exact hncond ⟨hx1, by omega, by omega⟩
      rw [hother r2 c2 hne]
      exact (ih g hd hr hc hcb2 r2 c2).2
        (by intro hx; exact hncond ⟨hx.1, hx.2.1, by omega⟩)

theorem fillExtentN_get (rowIdx : Nat) (colIdx : Int) (value : List Char)
    (C cols : Nat) :
    ∀ (R : Nat) (g : Grid), GridDims g cols → rowIdx + R ≤ g.length →
      0 ≤ colIdx → colIdx + (C : Int) ≤ (cols : Int) →
      ∀ r2 c2 : Nat,
        ((rowIdx ≤ r2 ∧ r2 < rowIdx + R ∧ colIdx.toNat ≤ c2 ∧
            c2 < colIdx.toNat + C) →
          gridGet (fillExtentN g rowIdx colIdx value R C) r2 c2 =
            some (some (if r2 = rowIdx ∧ c2 = colIdx.toNat then value else []))) ∧
        (¬(rowIdx ≤ r2 ∧ r2 < rowIdx + R ∧ colIdx.toNat ≤ c2 ∧
            c2 < colIdx.toNat + C) →
          gridGet (fillExtentN g rowIdx colIdx value R C) r2 c2 =
            gridGet g r2 c2) := by
  intro R
  induction R with
  | zero =>
    intro g hd hl hc hcb r2 c2
    constructor
    · intro hcond
      omega
    · intro h2
      rfl
  | succ R ih =>
    intro g hd hl hc hcb r2 c2
    obtain ⟨hdR, hlR⟩ := fillExtentN_dims rowIdx colIdx value R C hd
    have hrow : rowIdx + R < (fillExtentN g rowIdx colIdx value R C).length := by
      omega
    have hwr := writeRun_get (rowIdx + R) colIdx
      (fun c => if R = 0 ∧ c = 0 then value else []) cols C
      (fillExtentN g rowIdx colIdx value R C) hdR hrow hc hcb
    rw [fillExtentN_succ]
    constructor
    · rintro ⟨h1, h2, h3, h4⟩
      by_cases hlast : r2 = rowIdx + R
      · subst hlast
        rw [(hwr (rowIdx + R) c2).1 ⟨rfl, h3, h4⟩]
        simp only []
        by_cases hz : R = 0 ∧ c2 - colIdx.toNat = 0
        · rw [if_pos hz,
            if_pos (show rowIdx + R = rowIdx ∧ c2 = colIdx.toNat by omega)]
        · rw [if_neg hz,
            if_neg (show ¬(rowIdx + R = rowIdx ∧ c2 = colIdx.toNat) by
              intro hx
              exact hz ⟨by omega, by omega⟩)]
      · rw [(hwr r2 c2).2 (by intro hx; exact hlast hx.1)]
        exact (ih g hd (by omega) hc hcb r2 c2).1 ⟨h1, by omega, h3, h4⟩
    · intro hncond
      rw [(hwr r2 c2).2
        (by intro hx; exact hncond ⟨by omega, by omega, hx.2.1, hx.2.2⟩)]
      exact (ih g hd (by omega) hc hcb r2 c2).2
        (by intro hx; exact hncond ⟨hx.1, by omega, hx.2.2.1, hx.2.2.2⟩)

theorem writeRun_entries (row : Nat) (colIdx : Int) (f : Nat → List Char)
    (hc : 0 ≤ colIdx) :
    ∀ (n : Nat) (g : Grid) (r2 c2 : Nat),
      gridGet (writeRun g row colIdx f n) r2 c2 = gridGet g r2 c2 ∨
      ∃ k, k < n ∧ r2 = row ∧ (c2 : Int) = colIdx + (k : Int) ∧
        gridGet (writeRun g row colIdx f n) r2 c2 = some (some (f k)) := by
  intro n
  induction n with
  | zero =>
    intro g r2 c2
    exact Or.inl rfl
  | succ n ih =>
    intro g r2 c2
    cases hset : gridSet (writeRun g row colIdx f n) row (colIdx + (n : Int))
        (some (f n)) with
    | none =>
      have hrw : writeRun g row colIdx f (n + 1) = writeRun g row colIdx f n := by
        rw [writeRun_succ, hset]
      rw [hrw]
      rcases ih g r2 c2 with h1 | ⟨k, hk, h2, h3, h4⟩
      · exact Or.inl h1
      · exact Or.inr ⟨k, by omega, h2, h3, h4⟩
    | some g2 =>
      have hrw : writeRun g row colIdx f (n + 1) = g2 := by
        rw [writeRun_succ, hset]
      rw [hrw]
      obtain ⟨hat, hother⟩ := gridSet_get hset (by omega)
      by_cases hx : r2 = row ∧ c2 = (colIdx + (n : Int)).toNat
      · obtain ⟨hx1, hx2⟩ := hx
        subst hx1
        subst hx2
        exact Or.inr ⟨n, by omega, rfl, by omega, hat⟩
      · rw [hother r2 c2 hx]
        rcases ih g r2 c2 with h1 | ⟨k, hk, h2, h3, h4⟩
        · exact Or.inl h1
        · exact Or.inr ⟨k, by omega, h2, h3, h4⟩

theorem fillExtentN_entries (rowIdx : Nat) (colIdx : Int) (value : List Char)
    (C : Nat) (hc : 0 ≤ colIdx) :
    ∀ (R : Nat) (g : Grid) (r2 c2 : Nat),
      gridGet (fillExtentN g rowIdx colIdx value R C) r2 c2 = gridGet g r2 c2 ∨
      ∃ ri k, ri < R ∧ k < C ∧ r2 = rowIdx + ri ∧
        (c2 : Int) = colIdx + (k : Int) ∧
        gridGet (fillExtentN g rowIdx colIdx value R C) r2 c2 =
          some (some (if ri = 0 ∧ k = 0 then value else [])) := by
  intro R
  induction R with
  | zero =>
    intro g r2 c2
    exact Or.inl rfl
  | succ R ih =>
    intro g r2 c2
    rw [fillExtentN_succ]
    rcases writeRun_entries (rowIdx + R) colIdx
        (fun c => if R = 0 ∧ c = 0 then value else []) hc C
        (fillExtentN g rowIdx colIdx value R C) r2 c2 with
      h1 | ⟨k, hk, h2, h3, h4⟩
    · rw [h1]
      rcases ih g r2 c2 with h5 | ⟨ri, k, hri, hk, h6, h7, h8⟩
      · exact Or.inl h5
      · exact Or.inr ⟨ri, k, by omega, hk, h6, h7, h8⟩
    · exact Or.inr ⟨R, k, by omega, hk, h2, h3, h4⟩

theorem fillExtent_entries (g : Grid) (rowIdx : Nat) (colIdx : Int)
    (value : List Char) (rs cs : Int) (hc : 0 ≤ colIdx) (r2 c2 : Nat) :
    gridGet (fillExtent g rowIdx colIdx value rs cs) r2 c2 = gridGet g r2 c2 ∨
    ∃ ri k, ri < rs.toNat ∧ k < cs.toNat ∧ r2 = rowIdx + ri ∧
      (c2 : Int) = colIdx + (k : Int) ∧
      gridGet (fillExtent g rowIdx colIdx value rs cs) r2 c2 =
        some (some (if ri = 0 ∧ k = 0 then value else [])) := by
  rw [fillExtent_eq_N]
  exact fillExtentN_entries rowIdx colIdx value cs.toNat hc rs.toNat g r2 c2

theorem pyGet_ok {α : Type} {l : List α} {i : Int} {v : α} (h0 : 0 ≤ i)
    (hv : l[i.toNat]? = some v) (hil : i < (l.length : Int)) :
    pyGet l i = .ok v := by
  unfold pyGet pyIndex
  rw [if_pos (show 0 ≤ i ∧ i < (l.length : Int) from ⟨h0, hil⟩)]
  simp only []
  rw [hv]

theorem skipGo_spec {row : List (Option (List Char))} {tc : Int} :
    ∀ (fuel : Nat) (c0 c2 : Int), tc - c0 ≤ (fuel : Int) →
      skipGo row tc fuel c0 = .ok c2 →
      c0 ≤ c2 ∧
      (∀ i : Int, c0 ≤ i → i < c2 → ∃ v, pyGet row i = .ok (some v)) ∧
      (c2 < tc → pyGet row c2 = .ok none) := by
  intro fuel
  induction fuel with
  | zero =>
    intro c0 c2 hfuel h
    have h2 : Except.ok c0 = Except.ok c2 := h
    cases h2
    exact ⟨le_refl _, fun i h1 h2 => absurd h2 (by omega),
      fun hlt => absurd hlt (by omega)⟩
  | succ fuel ih =>
    intro c0 c2 hfuel h
    simp only [skipGo] at h
    by_cases hlt : c0 < tc
    · rw [if_pos hlt] at h
      cases hget : pyGet row c0 with
      | error e =>
        rw [hget] at h
        simp at h
      | ok oval =>
        rw [hget] at h
        cases oval with
        | none =>
          have h2 : Except.ok c0 = Except.ok c2 := h
          cases h2
          exact ⟨le_refl _, fun i h1 h2 => absurd h2 (by omega), fun _ => hget⟩
        | some v =>
          have h2 : skipGo row tc fuel (c0 + 1) = .ok c2 := h
          obtain ⟨ha, hb, hc⟩ := ih (c0 + 1) c2 (by omega) h2
          refine ⟨by omega, ?_, hc⟩
          intro i h1 h2i
          by_cases hi : i = c0
          · subst hi
            exact ⟨v, hget⟩
          · exact hb i (by omega) h2i
    · rw [if_neg hlt] at h
      have h2 : Except.ok c0 = Except.ok c2 := h
      cases h2
      exact ⟨le_refl _, fun i h1 h2 => absurd h2 (by omega),
        fun hlt2 => absurd hlt2 hlt⟩

theorem skipFilled_spec {row : List (Option (List Char))} {tc c0 c2 : Int}
    (h : skipFilled row tc c0 = .ok c2) :
    c0 ≤ c2 ∧
    (∀ i : Int, c0 ≤ i → i < c2 → ∃ v, pyGet row i = .ok (some v)) ∧
    (c2 < tc → pyGet row c2 = .ok none) :=
  skipGo_spec (tc - c0).toNat c0 c2 (Int.self_le_toNat _) h

theorem skipGo_ok {row : List (Option (List Char))} {tc : Int}
    (htc : tc ≤ (row.length : Int)) :
    ∀ (fuel : Nat) (c0 : Int), 0 ≤ c0 → ∃ a, skipGo row tc fuel c0 = .ok a := by
  intro fuel
  induction fuel with
  | zero =>
    intro c0 _
    exact ⟨c0, rfl⟩
  | succ fuel ih =>
    intro c0 hc0
    simp only [skipGo]
    by_cases hlt : c0 < tc
    · rw [if_pos hlt]
      have hlt2 : c0.toNat < row.length := by omega
      obtain ⟨v, hv⟩ : ∃ v, row[c0.toNat]? = some v :=
        ⟨_, List.getElem?_eq_getElem hlt2⟩
      rw [pyGet_ok hc0 hv (by omega)]
      cases v with
      | none => exact ⟨c0, rfl⟩
      | some s => exact ih (c0 + 1) (by omega)
    · rw [if_neg hlt]
      exact ⟨c0, rfl⟩

theorem skipFilled_ok {row : List (Option (List Char))} {tc c0 : Int}
    (htc : tc ≤ (row.length : Int)) (hc0 : 0 ≤ c0) :
    ∃ a, skipFilled row tc c0 = .ok a :=
  skipGo_ok htc (tc - c0).toNat c0 hc0

theorem fillCell_eq (tc : Int) (rowIdx : Nat) (st : Grid × Int) (cell : Cell)
    (a : Int) (hsk : skipFilled (st.1[rowIdx]?.getD []) tc st.2 = .ok a) :
    fillCell tc rowIdx st cell =
      if a ≥ tc then .ok (st.1, a)
      else .ok (fillExtent st.1 rowIdx a (sanitizeCell cell.text) cell.rowspan
        cell.colspan, a + cell.colspan) := by
  unfold fillCell
  rw [hsk]
  simp only [Bind.bind, Except.bind]
  split <;> rfl

theorem foldlM_ok {α β : Type} (P : β → Prop) (f : β → α → Except Unit β) :
    ∀ (l : List α) (b : β), P b →
      (∀ b1 a, a ∈ l → P b1 → ∃ b2, f b1 a = .ok b2 ∧ P b2) →
      ∃ b2, l.foldlM f b = .ok b2 ∧ P b2 := by
  intro l
  induction l with
  | nil =>
    intro b hb _
    exact ⟨b, rfl, hb⟩
  | cons a as ih =>
    intro b hb hstep
    obtain ⟨b1, hf, hb1⟩ := hstep b a (List.mem_cons_self a as) hb
    obtain ⟨b2, hfold, hb2⟩ := ih b1 hb1
      (fun b3 a2 ha2 hb3 => hstep b3 a2 (List.mem_cons_of_mem a ha2) hb3)
    refine ⟨b2, ?_, hb2⟩
    rw [List.foldlM_cons, hf]
    exact hfold

theorem fillCell_ok (tc : Int) (rowIdx : Nat) (g : Grid) (cur : Int)
    (cell : Cell) (hd : GridDims g tc.toNat) (hr : rowIdx < g.length)
    (hcur : 0 ≤ cur) (hcs : 0 ≤ cell.colspan) :
    ∃ g2 cur2, fillCell tc rowIdx (g, cur) cell = .ok (g2, cur2) ∧
      GridDims g2 tc.toNat ∧ g2.length = g.length ∧ cur ≤ cur2 := by
  obtain ⟨row, hrow⟩ : ∃ row, g[rowIdx]? = some row :=
    ⟨_, List.getElem?_eq_getElem hr⟩
  have hlen : row.length = tc.toNat := hd row (mem_of_getElem_opt hrow)
  have htc : tc ≤ (row.length : Int) := by omega
  obtain ⟨a, hsk⟩ := skipFilled_ok htc hcur
  have hgd : g[rowIdx]?.getD [] = row := by
    rw [hrow]
    rfl
  have hsk2 : skipFilled ((g, cur).1[rowIdx]?.getD []) tc (g, cur).2 = .ok a := by
    rw [show ((g, cur).1[rowIdx]?.getD []) = g[rowIdx]?.getD [] from rfl, hgd]
    exact hsk
  have ha : cur ≤ a := (skipFilled_spec hsk).1
  rw [fillCell_eq tc rowIdx (g, cur) cell a hsk2]
  by_cases hge : a ≥ tc
  · rw [if_pos hge]
    exact ⟨g, a, rfl, hd, rfl, ha⟩
  · rw [if_neg hge]
    refine ⟨_, _, rfl,
      (fillExtent_dims rowIdx a (sanitizeCell cell.text) cell.rowspan
        cell.colspan hd).1,
      (fillExtent_dims rowIdx a (sanitizeCell cell.text) cell.rowspan
        cell.colspan hd).2, by omega⟩

theorem fillRow_ok (tc : Int) (rowIdx : Nat) (g : Grid) (row : List Cell)
    (hd : GridDims g tc.toNat) (hr : rowIdx < g.length)
    (hcs : ∀ cell ∈ row, 0 ≤ cell.colspan) :
    ∃ g2, fillRow tc rowIdx g row = .ok g2 ∧ GridDims g2 tc.toNat ∧
      g2.length = g.length := by
  have hstep : ∀ (st1 : Grid × Int) (cell : Cell), cell ∈ row →
      (GridDims st1.1 tc.toNat ∧ st1.1.length = g.length ∧ 0 ≤ st1.2) →
      ∃ st3, fillCell tc rowIdx st1 cell = .ok st3 ∧
        (GridDims st3.1 tc.toNat ∧ st3.1.length = g.length ∧ 0 ≤ st3.2) := by
    intro st1 cell hcell hP1
    obtain ⟨g1, cur1⟩ := st1
    obtain ⟨hd1, hl1, hcur1⟩ := hP1
    have hl1b : g1.length = g.length := hl1
    obtain ⟨g3, cur3, hf, hd3, hl3, hcur3⟩ :=
      fillCell_ok tc rowIdx g1 cur1 cell hd1 (by omega) hcur1 (hcs cell hcell)
    exact ⟨(g3, cur3), hf, hd3, by rw [hl3]; exact hl1, by omega⟩
  obtain ⟨st2, hfold, hP2⟩ := foldlM_ok
    (fun st : Grid × Int =>
      GridDims st.1 tc.toNat ∧ st.1.length = g.length ∧ 0 ≤ st.2)
    (fillCell tc rowIdx) row (g, 0) ⟨hd, rfl, le_refl 0⟩ hstep
  refine ⟨st2.1, ?_, hP2.1, hP2.2.1⟩
  unfold fillRow
  rw [hfold]
  rfl

theorem fillGridGo_ok (tc : Int) :
    ∀ (rows : List (List Cell)) (rowIdx : Nat) (g : Grid),
      GridDims g tc.toNat → rowIdx + rows.length ≤ g.length →
      (∀ row ∈ rows, ∀ cell ∈ row, 0 ≤ cell.colspan) →
      ∃ g2, fillGridGo tc rowIdx g rows = .ok g2 ∧ GridDims g2 tc.toNat ∧
        g2.length = g.length := by
  intro rows
  induction rows with
  | nil =>
    intro rowIdx g hd _ _
    exact ⟨g, rfl, hd, rfl⟩
  | cons row rest ih =>
    intro rowIdx g hd hlen hcs
    have hr : rowIdx < g.length := by
      simp only [List.length_cons] at hlen
      omega
    obtain ⟨gmid, hrow, hdmid, hlmid⟩ := fillRow_ok tc rowIdx g row hd hr
      (hcs row (List.mem_cons_self row rest))
    obtain ⟨g2, hrest, hd2, hl2⟩ := ih (rowIdx + 1) gmid hdmid
      (by simp only [List.length_cons] at hlen; omega)
      (fun r hr2 cell hc => hcs r (List.mem_cons_of_mem row hr2) cell hc)
    refine ⟨g2, ?_, hd2, hl2.trans hlmid⟩
    simp only [fillGridGo]
    rw [hrow]
    exact hrest

theorem fillGrid_ok (t : List (List Cell))
    (hcs : ∀ row ∈ t, ∀ cell ∈ row, 0 ≤ cell.colspan) :
    ∃ g, fillGrid t = .ok g := by
  unfold fillGrid
  have hd : GridDims (emptyGrid (totalRows t) (totalCols t).toNat)
      (totalCols t).toNat := by
    intro row hrow
    rw [List.eq_of_mem_replicate hrow]
    exact List.length_replicate _ _
  obtain ⟨g2, h2, -, -⟩ := fillGridGo_ok (totalCols t) t 0
    (emptyGrid (totalRows t) (totalCols t).toNat) hd
    (by simp [emptyGrid, totalRows]) hcs
  exact ⟨g2, h2⟩

theorem convertTable_ok (t : List (List Cell))
    (hcs : ∀ row ∈ t, ∀ cell ∈ row, 0 ≤ cell.colspan) :
    ∃ md, convertTable t = .ok md := by
  obtain ⟨g, hg⟩ := fillGrid_ok t hcs
  refine ⟨'\n' :: '\n' :: (List.intercalate ['\n'] (tableLines t g)) ++
    ['\n', '\n'], ?_⟩
  unfold convertTable
  rw [hg]
  rfl

theorem mapM_option_ok {α β : Type} (Q : β → Prop) (f : α → Option β) :
    ∀ l : List α, (∀ a ∈ l, ∃ b, f a = some b ∧ Q b) →
      ∃ l2, l.mapM f = some l2 ∧ ∀ b ∈ l2, Q b := by
  intro l
  induction l with
  | nil =>
    intro h
    refine ⟨[], rfl, ?_⟩
    intro b hb
    simp at hb
  | cons a as ih =>
    intro h
    obtain ⟨b, hb, hQ⟩ := h a (List.mem_cons_self a as)
    obtain ⟨l2, hl2, hQ2⟩ := ih (fun a2 ha2 => h a2 (List.mem_cons_of_mem a ha2))
    refine ⟨b :: l2, ?_, ?_⟩
    · rw [List.mapM_cons, hb, hl2]
      rfl
    · intro b2 hb2
      rcases List.mem_cons.mp hb2 with rfl | hmem
      · exact hQ
      · exact hQ2 b2 hmem

theorem parseTable_ok (t : List (List RawCell))
    (h : ∀ row ∈ t, ∀ c ∈ row, ∃ cell, parseCell c = some cell ∧
      0 ≤ cell.rowspan ∧ 0 ≤ cell.colspan) :
    ∃ tc, parseTable t = .ok tc ∧
      ∀ row ∈ tc, ∀ cell ∈ row, 0 ≤ cell.rowspan ∧ 0 ≤ cell.colspan := by
  have hrows : ∀ row ∈ t, ∃ rowC, row.mapM parseCell = some rowC ∧
      ∀ cell ∈ rowC, 0 ≤ cell.rowspan ∧ 0 ≤ cell.colspan := by
    intro row hrow
    exact mapM_option_ok (fun cell => 0 ≤ cell.rowspan ∧ 0 ≤ cell.colspan)
      parseCell row (h row hrow)
  obtain ⟨tc, htc, hQ⟩ := mapM_option_ok
    (fun rowC => ∀ cell ∈ rowC, 0 ≤ cell.rowspan ∧ 0 ≤ cell.colspan)
    (fun row => row.mapM parseCell) t hrows
  refine ⟨tc, ?_, hQ⟩
  unfold parseTable
  rw [htc]

theorem convertTableRaw_ok (t : List (List RawCell))
    (h : ∀ row ∈ t, ∀ c ∈ row, ∃ cell, parseCell c = some cell ∧
      0 ≤ cell.rowspan ∧ 0 ≤ cell.colspan) :
    ∃ md, convertTableRaw t = .ok md := by
  obtain ⟨tc, htc, hQ⟩ := parseTable_ok t h
  obtain ⟨md, hmd⟩ := convertTable_ok tc
    (fun row hrow cell hcell => (hQ row hrow cell hcell).2)
  refine ⟨md, ?_⟩
  unfold convertTableRaw
  rw [htc]
  exact hmd

theorem convert_p_ok (classes : List (List Char)) (bt : Option (List Char))
    (text : List Char)
    (h : String.toList "has-continuation" ∈ classes →
      ∃ s b, bt = some s ∧ parseBlockType s = some b) :
    ∃ out, convert_p classes bt text = .ok out := by
  simp only [convert_p]
  by_cases hmem : String.toList "has-continuation" ∈ classes
  · rw [if_pos hmem]
    obtain ⟨s, b, rfl, hpb⟩ := h hmem
    simp only [hpb]
    cases b <;> exact ⟨_, rfl⟩
  · rw [if_neg hmem]
    exact ⟨_, rfl⟩

theorem fillCell_persist (tc : Int) (rowIdx : Nat) (g g2 : Grid)
    (cur cur2 : Int) (cell : Cell) (hcur : 0 ≤ cur)
    (hclean : CleanBelow rowIdx cur g) (hcs : 0 ≤ cell.colspan)
    (h : fillCell tc rowIdx (g, cur) cell = .ok (g2, cur2)) :
    (∀ r c s, gridGet g r c = some (some s) → s ≠ [] →
      gridGet g2 r c = some (some s)) ∧
    cur ≤ cur2 ∧ CleanBelow rowIdx cur2 g2 := by
  unfold fillCell at h
  cases hsk : skipFilled ((g, cur).1[rowIdx]?.getD []) tc (g, cur).2 with
  | error e =>
    rw [hsk] at h
    simp [Bind.bind, Except.bind] at h
  | ok a =>
    rw [hsk] at h
    simp only [Bind.bind, Except.bind] at h
    have ha : cur ≤ a := (skipFilled_spec hsk).1
    split at h
    · next hge =>
      cases h
      refine ⟨fun r c s hs _ => hs, ha, ?_⟩
      intro r c s hs hne
      rcases hclean r c s hs hne with h1 | ⟨h1, h2⟩
      · exact Or.inl h1
      · exact Or.inr ⟨h1, by omega⟩
    · next hge =>
      cases h
      have hfa : 0 ≤ a := by omega
      constructor
      · intro r c s hs hne
        rcases fillExtent_entries g rowIdx a (sanitizeCell cell.text)
            cell.rowspan cell.colspan hfa r c with
          heq | ⟨ri, k, hri, hk, hr2, hc2, hgv⟩
        · rw [heq]
          exact hs
        · exfalso
          rcases hclean r c s hs hne with h1 | ⟨h1, h2⟩
          · omega
          · omega
      · refine ⟨by omega, ?_⟩
        intro r c s hs hne
        rcases fillExtent_entries g rowIdx a (sanitizeCell cell.text)
            cell.rowspan cell.colspan hfa r c with
          heq | ⟨ri, k, hri, hk, hr2, hc2, hgv⟩
        · rw [heq] at hs
          rcases hclean r c s hs hne with h1 | ⟨h1, h2⟩
          · exact Or.inl h1
          · exact Or.inr ⟨h1, by omega⟩
        · rw [hgv] at hs
          have hval : (if ri = 0 ∧ k = 0 then sanitizeCell cell.text else []) = s := by
            simp at hs
            exact hs
          by_cases hz : ri = 0 ∧ k = 0
          · right
            obtain ⟨hz1, hz2⟩ := hz
            constructor
            · omega
            · omega
          · rw [if_neg hz] at hval
            exact absurd hval.symm hne

theorem fillRow_persist (tc : Int) (rowIdx : Nat) (g g2 : Grid)
    (row : List Cell) (hclean : CleanBelow rowIdx 0 g)
    (hcs : ∀ cell ∈ row, 0 ≤ cell.colspan)
    (h : fillRow tc rowIdx g row = .ok g2) :
    (∀ r c s, gridGet g r c = some (some s) → s ≠ [] →
      gridGet g2 r c = some (some s)) ∧
    CleanBelow (rowIdx + 1) 0 g2 := by
  unfold fillRow at h
  cases hfold : List.foldlM (fillCell tc rowIdx) (g, (0 : Int)) row with
  | error e =>
    rw [hfold] at h
    simp [Except.map] at h
  | ok st =>
    rw [hfold] at h
    simp only [Except.map] at h
    cases h
    have hQ := foldlM_preserve
      (P := fun st : Grid × Int => 0 ≤ st.2 ∧ CleanBelow rowIdx st.2 st.1 ∧
        ∀ r c s, gridGet g r c = some (some s) → s ≠ [] →
          gridGet st.1 r c = some (some s))
      (fillCell tc rowIdx) row (g, 0) st
      ⟨le_refl 0, hclean, fun r c s hs _ => hs⟩
      ?_ hfold
    · obtain ⟨hcur, hclean2, hpers⟩ := hQ
      refine ⟨hpers, ?_⟩
      intro r c s hs hne
      rcases hclean2 r c s hs hne with h1 | ⟨h1, -⟩
      · exact Or.inl (by omega)
      · exact Or.inl (by omega)
    · intro st1 cell st3 hcell hP1 hf
      obtain ⟨g1, cur1⟩ := st1
      obtain ⟨g3, cur3⟩ := st3
      obtain ⟨hcur1, hclean1, hpers1⟩ := hP1
      have hcur1b : 0 ≤ cur1 := hcur1
      have hclean1b : CleanBelow rowIdx cur1 g1 := hclean1
      obtain ⟨hpers3, hcur3, hclean3⟩ := fillCell_persist tc rowIdx g1 g3
        cur1 cur3 cell hcur1b hclean1b (hcs cell hcell) hf
      refine ⟨by omega, hclean3, ?_⟩
      intro r c s hs hne
      exact hpers3 r c s (hpers1 r c s hs hne) hne

theorem fillGridGo_persist (tc : Int) :
    ∀ (rows : List (List Cell)) (rowIdx : Nat) (g g2 : Grid),
      CleanBelow rowIdx 0 g →
      (∀ row ∈ rows, ∀ cell ∈ row, 0 ≤ cell.colspan) →
      fillGridGo tc rowIdx g rows = .ok g2 →
      (∀ r c s, gridGet g r c = some (some s) → s ≠ [] →
        gridGet g2 r c = some (some s)) ∧
      CleanBelow (rowIdx + rows.length) 0 g2 := by
  intro rows
  induction rows with
  | nil =>
    intro rowIdx g g2 hclean _ h
    simp only [fillGridGo] at h
    cases h
    exact ⟨fun r c s hs _ => hs, by simpa using hclean⟩
  | cons row rest ih =>
    intro rowIdx g g2 hclean hcs h
    simp only [fillGridGo] at h
    cases hrow : fillRow tc rowIdx g row with
    | error e =>
      rw [hrow] at h
      simp [Bind.bind, Except.bind] at h
    | ok gmid =>
      rw [hrow] at h
      simp only [Bind.bind, Except.bind] at h
      obtain ⟨hpers1, hclean1⟩ := fillRow_persist tc rowIdx g gmid row hclean
        (hcs row (List.mem_cons_self row rest)) hrow
      obtain ⟨hpers2, hclean2⟩ := ih (rowIdx + 1) gmid g2 hclean1
        (fun r hr cell hc => hcs r (List.mem_cons_of_mem row hr) cell hc) h
      constructor
      · intro r c s hs hne
        exact hpers2 r c s (hpers1 r c s hs hne) hne
      · have hlen : rowIdx + (row :: rest).length = rowIdx + 1 + rest.length := by
          simp only [List.length_cons]
          omega
        rw [hlen]
        exact hclean2

/-! ### Claim C7 -/

/-- C7: in the second pass, the cursor skip returns the first position at or
past the cursor that is not already filled (part 1); processing a cell whose
anchor lies inside the grid fills the extent with the sanitised text and
advances the cursor by the colspan (part 2); an in-bounds rowspan×colspan
extent receives the sanitised value exactly once, at the anchor, the empty
string at every other covered position, and leaves every position outside
the extent unchanged (part 3); and on the spec's 2×2 example with
rowspan 2 at (0,0) the grid is `[[A, B], ["", C]]` and the rendered table
has an empty cell at row 1, column 0 (parts 4 and 5). -/
theorem c7_second_pass_placement :
    (∀ (row : List (Option (List Char))) (tc c0 c2 : Int),
      skipFilled row tc c0 = .ok c2 →
      c0 ≤ c2 ∧
      (∀ i : Int, c0 ≤ i → i < c2 → ∃ v, pyGet row i = .ok (some v)) ∧
      (c2 < tc → pyGet row c2 = .ok none)) ∧
    (∀ (tc : Int) (rowIdx : Nat) (g : Grid) (cur a : Int) (cell : Cell),
      skipFilled (g[rowIdx]?.getD []) tc cur = .ok a → a < tc →
      fillCell tc rowIdx (g, cur) cell =
        .ok (fillExtent g rowIdx a (sanitizeCell cell.text) cell.rowspan
          cell.colspan, a + cell.colspan)) ∧
    (∀ (cols : Nat) (g : Grid) (rowIdx : Nat) (colIdx rs cs : Int)
        (value : List Char),
      GridDims g cols → 0 ≤ colIdx → 1 ≤ rs → 1 ≤ cs →
      rowIdx + rs.toNat ≤ g.length → colIdx + cs ≤ (cols : Int) →
      gridGet (fillExtent g rowIdx colIdx value rs cs) rowIdx colIdx.toNat =
        some (some value) ∧
      (∀ r2 c2 : Nat, rowIdx ≤ r2 → r2 < rowIdx + rs.toNat →
        colIdx.toNat ≤ c2 → c2 < colIdx.toNat + cs.toNat →
        ¬(r2 = rowIdx ∧ c2 = colIdx.toNat) →
        gridGet (fillExtent g rowIdx colIdx value rs cs) r2 c2 =
          some (some [])) ∧
      (∀ r2 c2 : Nat,
        ¬(rowIdx ≤ r2 ∧ r2 < rowIdx + rs.toNat ∧ colIdx.toNat ≤ c2 ∧
          c2 < colIdx.toNat + cs.toNat) →
        gridGet (fillExtent g rowIdx colIdx value rs cs) r2 c2 =
          gridGet g r2 c2)) ∧
    fillGrid c7Table = .ok
      [[some (String.toList "A"), some (String.toList "B")],
       [some [], some (String.toList "C")]] ∧
    convertTable c7Table =
      .ok (String.toList "\n\n| A | B |\n|---|---|\n|   | C |\n\n") := by
  refine ⟨?_, ?_, ?_, ?_, ?_⟩
  · intro row tc c0 c2 h
    exact skipFilled_spec h
  · intro tc rowIdx g cur a cell hsk hlt
    have hsk2 : skipFilled ((g, cur).1[rowIdx]?.getD []) tc (g, cur).2 = .ok a := hsk
    rw [fillCell_eq tc rowIdx (g, cur) cell a hsk2]
    rw [if_neg (by omega)]
  · intro cols g rowIdx colIdx rs cs value hd hc hrs hcs hrows hfit
    have hCc : colIdx + ((cs.toNat : Nat) : Int) ≤ (cols : Int) := by omega
    have hget := fillExtentN_get rowIdx colIdx value cs.toNat cols rs.toNat g
      hd hrows hc hCc
    rw [fillExtent_eq_N]
    refine ⟨?_, ?_, ?_⟩
    · have h1 := (hget rowIdx colIdx.toNat).1
        ⟨le_refl _, by omega, le_refl _, by omega⟩
      rw [h1, if_pos ⟨rfl, rfl⟩]
    · intro r2 c2 h1 h2 h3 h4 h5
      rw [(hget r2 c2).1 ⟨h1, h2, h3, h4⟩, if_neg h5]
    · intro r2 c2 hn
      exact (hget r2 c2).2 hn
  · rfl
  · rfl

theorem c7_witness :
    skipFilled [some (String.toList "x"), none] 2 0 = .ok 1 ∧
    (∃ v, pyGet [some (String.toList "x"), none] 0 = .ok (some v)) ∧
    pyGet [some (String.toList "x"), none] 1 = .ok none ∧
    gridGet (fillExtent [[none, none], [none, none]] 0 0
      (String.toList "A") 2 1) 1 0 = some (some []) := by
  refine ⟨rfl, ?_, ?_, ?_⟩
  · exact (c7_second_pass_placement.1 [some (String.toList "x"), none] 2 0 1
      rfl).2.1 0 (le_refl 0) (by decide)
  · exact (c7_second_pass_placement.1 [some (String.toList "x"), none] 2 0 1
      rfl).2.2 (by decide)
  · exact (c7_second_pass_placement.2.2.1 2 [[none, none], [none, none]] 0 0 2 1
      (String.toList "A")
      (by intro row hrow; simp at hrow; subst hrow; rfl)
      (by decide) (by decide) (by decide) (by decide) (by decide)).2.1 1 0
      (by decide) (by decide) (by decide) (by decide) (by decide)

/-! ### Claims C3 and C8: the amended statements -/

/-- C3 (amended): the conversion returns a Markdown string and never raises
provided every has-continuation paragraph carries a known block-type and
every colspan/rowspan attribute parses as a nonnegative integer; a
has-continuation paragraph with an unknown block-type raises `KeyError`,
and a non-integer rowspan raises `ValueError`. -/
theorem c3_amended :
    (∀ (classes : List (List Char)) (bt : Option (List Char))
        (text : List Char),
      (String.toList "has-continuation" ∈ classes →
        ∃ s b, bt = some s ∧ parseBlockType s = some b) →
      ∃ out, convert_p classes bt text = .ok out) ∧
    (∀ t : List (List RawCell),
      (∀ row ∈ t, ∀ c ∈ row, ∃ cell, parseCell c = some cell ∧
        0 ≤ cell.rowspan ∧ 0 ≤ cell.colspan) →
      ∃ md, convertTableRaw t = .ok md) ∧
    convert_p [String.toList "has-continuation"]
      (some (String.toList "mystery-kind")) (String.toList "x") = .error () ∧
    convertTableRaw [[⟨String.toList "Y", none, some (String.toList "2.5")⟩]] =
      .error () :=
  ⟨convert_p_ok, convertTableRaw_ok, rfl, rfl⟩

theorem c3_amended_witness :
    (∃ out, convert_p [String.toList "has-continuation"]
      (some (String.toList "Text")) (String.toList "hi") = .ok out) ∧
    (∃ md, convertTableRaw [[⟨String.toList "W", some (String.toList "3"),
      some (String.toList "2")⟩]] = .ok md) := by
  constructor
  · exact c3_amended.1 [String.toList "has-continuation"]
      (some (String.toList "Text")) (String.toList "hi")
      (fun _ => ⟨String.toList "Text", .Text, rfl, rfl⟩)
  · refine c3_amended.2.1
      [[⟨String.toList "W", some (String.toList "3"),
        some (String.toList "2")⟩]] ?_
    intro row hrow c hc
    simp at hrow
    subst hrow
    simp at hc
    subst hc
    exact ⟨⟨String.toList "W", 2, 3⟩, rfl, by decide, by decide⟩

/-- C8 (amended): with nonnegative integer spans the grid-filling pass never
raises, even when extents overflow the computed bounds — every out-of-bounds
write is skipped and filling continues (part 1, and concretely part 3, where
a rowspan of 5 overflows a 2-row table) — and, from any state respecting the
pass's clean-state discipline, no already-placed nonempty cell value is ever
overwritten by the remainder of the pass (part 2). -/
theorem c8_amended :
    (∀ t : List (List Cell),
      (∀ row ∈ t, ∀ cell ∈ row, 0 ≤ cell.rowspan ∧ 0 ≤ cell.colspan) →
      ∃ md, convertTable t = .ok md) ∧
    (∀ (tc : Int) (rows : List (List Cell)) (rowIdx : Nat) (g g2 : Grid),
      CleanBelow rowIdx 0 g →
      (∀ row ∈ rows, ∀ cell ∈ row, 0 ≤ cell.colspan) →
      fillGridGo tc rowIdx g rows = .ok g2 →
      ∀ r c s, gridGet g r c = some (some s) → s ≠ [] →
        gridGet g2 r c = some (some s)) ∧
    convertTable c8OverflowTable =
      .ok (String.toList "\n\n| A | B |\n|---|---|\n|   | C |\n\n") := by
  refine ⟨?_, ?_, ?_⟩
  · intro t ht
    exact convertTable_ok t (fun row hrow cell hcell => (ht row hrow cell hcell).2)
  · intro tc rows rowIdx g g2 hclean hcs h
    exact (fillGridGo_persist tc rows rowIdx g g2 hclean hcs h).1
  · rfl

theorem c8_amended_witness :
    (∃ md, convertTable c8OverflowTable = .ok md) ∧
    gridGet [[some (String.toList "Z")]] 0 0 =
      some (some (String.toList "Z")) := by
  constructor
  · exact c8_amended.1 c8OverflowTable (by decide)
  · refine c8_amended.2.1 5 [] 1 [[some (String.toList "Z")]]
      [[some (String.toList "Z")]] ?_ ?_ rfl 0 0 (String.toList "Z") rfl
      (by decide)
    · intro r c s hs hne
      left
      by_contra hr
      have hr1 : 1 ≤ r := by omega
      have hnone : gridGet [[some (String.toList "Z")]] r c = none := by
        unfold gridGet
        rw [List.getElem?_eq_none (by simpa using hr1)]
        rfl
      rw [hnone] at hs
      simp at hs
    · intro row hrow
      simp at hrow

end Marker





